import Mathlib

/-!
Verification of the feedback-arc-set repository.

The Rust graph store (src/graph/hash_table.rs) keeps a
`BTreeMap<VertexId, Vec<VertexId>>` from each vertex to its out-neighbor
list.  We embed it as an association list whose keys are strictly
increasing — exactly the ordering guarantee a BTreeMap provides — so that
`vertices()` (`into_keys`) enumerates keys in ascending order, as in Rust.

`VertexId` is `u32` in the source; the algorithms only ever compare
identifiers (no arithmetic), so `Nat` is a faithful model.
-/

abbrev VertexId := Nat

abbrev Edge := VertexId × VertexId

inductive Direction
  | Inbound
  | Outbound
deriving DecidableEq

/-- The raw association-list update underlying `BTreeMap::entry`:
`upsertRaw k f d l` replaces the value at key `k` by `f` of it, or inserts
`d` at the sorted position when `k` is absent. -/
def upsertRaw (k : VertexId) (f : List VertexId → List VertexId)
    (d : List VertexId) : List (VertexId × List VertexId) → List (VertexId × List VertexId)
  | [] => [(k, d)]
  | p :: rest =>
    if k < p.1 then (k, d) :: p :: rest
    else if k = p.1 then (k, f p.2) :: rest
    else p :: upsertRaw k f d rest

theorem keys_upsertRaw (k : VertexId) (f : List VertexId → List VertexId)
    (d : List VertexId) (l : List (VertexId × List VertexId)) :
    ∀ q ∈ upsertRaw k f d l, q.1 = k ∨ q.1 ∈ l.map Prod.fst := by
  induction l with
  | nil =>
    intro q hq
    simp only [upsertRaw, List.mem_singleton] at hq
    subst hq; left; rfl
  | cons p rest ih =>
    intro q hq
    simp only [upsertRaw] at hq
    by_cases h1 : k < p.1
    · rw [if_pos h1] at hq
      rcases List.mem_cons.mp hq with h | h
      · subst h; left; rfl
      · right; rw [List.map_cons]
        rcases List.mem_cons.mp h with h' | h'
        · subst h'; exact List.mem_cons_self _ _
        · exact List.mem_cons_of_mem _ (List.mem_map_of_mem Prod.fst h')
    · by_cases h2 : k = p.1
      · rw [if_neg h1, if_pos h2] at hq
        rcases List.mem_cons.mp hq with h | h
        · subst h; left; rfl
        · right; rw [List.map_cons]
          exact List.mem_cons_of_mem _ (List.mem_map_of_mem Prod.fst h)
      · rw [if_neg h1, if_neg h2] at hq
        rcases List.mem_cons.mp hq with h | h
        · subst h; right; rw [List.map_cons]; exact List.mem_cons_self _ _
        · rcases ih q h with h' | h'
          · left; exact h'
          · right; rw [List.map_cons]; exact List.mem_cons_of_mem _ h'

theorem sorted_upsertRaw (k : VertexId) (f : List VertexId → List VertexId)
    (d : List VertexId) (l : List (VertexId × List VertexId))
    (hs : l.Pairwise (fun a b => a.1 < b.1)) :
    (upsertRaw k f d l).Pairwise (fun a b => a.1 < b.1) := by
  induction l with
  | nil => simp [upsertRaw]
  | cons p rest ih =>
    rcases List.pairwise_cons.mp hs with ⟨hp, hrest⟩
    simp only [upsertRaw]
    by_cases h1 : k < p.1
    · rw [if_pos h1]
      refine List.pairwise_cons.mpr ⟨?_, hs⟩
      intro q hq
      rcases List.mem_cons.mp hq with h | h
      · rw [h]; exact h1
      · exact lt_trans h1 (hp q h)
    · by_cases h2 : k = p.1
      · rw [if_neg h1, if_pos h2]
        refine List.pairwise_cons.mpr ⟨?_, hrest⟩
        intro q hq
        have h3 : p.1 < q.1 := hp q hq
        show k < q.1
        rw [h2]; exact h3
      · rw [if_neg h1, if_neg h2]
        refine List.pairwise_cons.mpr ⟨?_, ih hrest⟩
        intro q hq
        rcases keys_upsertRaw k f d rest q hq with h | h
        · show p.1 < q.1
          rw [h]
          exact lt_of_le_of_ne (Nat.le_of_not_lt h1) (fun he => h2 he.symm)
        · rcases List.mem_map.mp h with ⟨q', hq', he⟩
          have h3 : p.1 < q'.1 := hp q' hq'
          show p.1 < q.1
          rw [← he]; exact h3

/-- `HashTable` (src/graph/hash_table.rs): `data: BTreeMap<VertexId, Vec<VertexId>>`.
The field `sorted` is the BTreeMap structural guarantee of strictly
ascending keys. -/
structure HashTable where
  data : List (VertexId × List VertexId)
  sorted : data.Pairwise (fun a b => a.1 < b.1)

theorem HashTable.ext {g1 g2 : HashTable} (h : g1.data = g2.data) : g1 = g2 := by
  cases g1; cases g2; cases h; rfl

/-- `HashTable::new()`. -/
def HashTable.new : HashTable := ⟨[], List.Pairwise.nil⟩

/-- `HashTable::order()`: number of vertices (keys). -/
def HashTable.order (g : HashTable) : Nat := g.data.length

/-- `HashTable::vertices()`: `data.clone().into_keys().collect()` — keys in
ascending order. -/
def HashTable.vertices (g : HashTable) : List VertexId := g.data.map Prod.fst

/-- `HashTable::degree(u)`: `None` models the `panic!("Unknown VertexId")`. -/
def HashTable.degree (g : HashTable) (u : VertexId) : Option Nat :=
  (g.data.lookup u).map List.length

/-- `HashTable::edge_count()`: sum of the neighbor-list lengths. -/
def HashTable.edge_count (g : HashTable) : Nat :=
  (g.data.map (fun p => p.2.length)).sum

/-- `HashTable::edges(v, d)` as the fallible accessor: `none` models the
`unwrap` panic of the `Outbound` arm on an unknown vertex; the `Inbound`
arm scans all neighbor lists and cannot fail. -/
def HashTable.edges (g : HashTable) (v : VertexId) : Direction → Option (List Edge)
  | Direction.Outbound => (g.data.lookup v).map (fun l => l.map (fun w => (v, w)))
  | Direction.Inbound =>
      some ((g.data.filter (fun p => p.2.contains v)).map (fun p => (p.1, v)))

/-- Total variant of the `Outbound` arm of `edges`, used by the algorithms;
they only query vertices present in the graph, where both agree. -/
def HashTable.edges_out (g : HashTable) (v : VertexId) : List Edge :=
  ((g.data.lookup v).getD []).map (fun w => (v, w))

/-- Total variant of the `Inbound` arm of `edges`. -/
def HashTable.edges_in (g : HashTable) (v : VertexId) : List Edge :=
  (g.data.filter (fun p => p.2.contains v)).map (fun p => (p.1, v))

/-- `HashTable::all_edges()`: fold over `vertices()` extending by the
outbound edges of each. -/
def HashTable.all_edges (g : HashTable) : List Edge :=
  g.vertices.foldl (fun es v => es ++ g.edges_out v) []

/-- `HashTable::has_edge(u, v)`. -/
def HashTable.has_edge (g : HashTable) (u v : VertexId) : Bool :=
  match g.data.lookup u with
  | some edges => edges.contains v
  | none => false

/-- `HashTable::add_vertex(v)`: `entry(v).or_insert_with(Vec::new)`. -/
def HashTable.add_vertex (g : HashTable) (v : VertexId) : HashTable :=
  ⟨upsertRaw v id [] g.data, sorted_upsertRaw v id [] g.data g.sorted⟩

/-- `HashTable::add_edge(e)`: push `e.1` onto `e.0`'s list unless already
present, then ensure `e.1` is a key. -/
def HashTable.add_edge (g : HashTable) (e : Edge) : HashTable :=
  ⟨upsertRaw e.2 id []
      (upsertRaw e.1 (fun l => if l.contains e.2 then l else l ++ [e.2]) [e.2] g.data),
   sorted_upsertRaw e.2 id [] _
      (sorted_upsertRaw e.1 (fun l => if l.contains e.2 then l else l ++ [e.2]) [e.2]
        g.data g.sorted)⟩

/-- `HashTable::remove_vertex(v)`: drop `v` from every neighbor list (first
occurrence, as `position` + `remove`), then drop the key `v`. -/
def HashTable.remove_vertex (g : HashTable) (v : VertexId) : HashTable :=
  ⟨(g.data.map (fun p => (p.1, p.2.erase v))).filter (fun p => p.1 != v), by
    refine List.Pairwise.sublist (List.filter_sublist _) ?_
    rw [List.pairwise_map]
    exact g.sorted⟩

/-- `HashTable::remove_edge(e)`: erase the first occurrence of `e.1` in
`e.0`'s list, no-op when the source key is absent. -/
def HashTable.remove_edge (g : HashTable) (e : Edge) : HashTable :=
  ⟨g.data.map (fun p => if p.1 == e.1 then (p.1, p.2.erase e.2) else p), by
    have h : ∀ p : VertexId × List VertexId,
        ((fun p => if p.1 == e.1 then (p.1, p.2.erase e.2) else p) p).1 = p.1 := by
      intro p; by_cases hp : p.1 == e.1 <;> simp [hp]
    rw [List.pairwise_map]
    refine g.sorted.imp_of_mem ?_
    intro a b _ _ hab
    rw [h a, h b]; exact hab⟩

/-- `HashTable::from_edges(edges)`. -/
def HashTable.from_edges (edges : List Edge) : HashTable :=
  edges.foldl HashTable.add_edge HashTable.new

/-- `HashTable::from_vertices_and_edges(vertices, edges)`. -/
def HashTable.from_vertices_and_edges (vs : List VertexId) (edges : List Edge) : HashTable :=
  edges.foldl HashTable.add_edge (vs.foldl HashTable.add_vertex HashTable.new)

/-- One comparison step of `Iterator::min_by(|v1, v2| v1.1.cmp(&v2.1))`:
the accumulator is kept on ties, so the first minimum wins. -/
def minStep (q p : VertexId × Nat) : VertexId × Nat := if p.2 < q.2 then p else q

theorem minFoldl_spec : ∀ (l : List (VertexId × Nat)) (q : VertexId × Nat),
    (l.foldl minStep q = q ∨ l.foldl minStep q ∈ l) ∧
    (l.foldl minStep q).2 ≤ q.2 ∧
    (∀ p ∈ l, (l.foldl minStep q).2 ≤ p.2) ∧
    ((l.foldl minStep q).2 = q.2 → l.foldl minStep q = q) := by
  intro l
  induction l with
  | nil => intro q; simp
  | cons p rest ih =>
    intro q
    simp only [List.foldl_cons]
    by_cases hc : p.2 < q.2
    · have hq' : minStep q p = p := if_pos hc
      rw [hq']
      obtain ⟨hmem, hle, hall, htie⟩ := ih p
      refine ⟨?_, ?_, ?_, ?_⟩
      · right
        rcases hmem with h | h
        · rw [h]; exact List.mem_cons_self _ _
        · exact List.mem_cons_of_mem _ h
      · exact le_of_lt (lt_of_le_of_lt hle hc)
      · intro x hx
        rcases List.mem_cons.mp hx with h | h
        · rw [h]; exact hle
        · exact hall x h
      · intro he
        exfalso
        have h2 := lt_of_le_of_lt hle hc
        rw [he] at h2
        exact lt_irrefl _ h2
    · have hq' : minStep q p = q := if_neg hc
      rw [hq']
      obtain ⟨hmem, hle, hall, htie⟩ := ih q
      have hqp : q.2 ≤ p.2 := Nat.le_of_not_lt hc
      refine ⟨?_, hle, ?_, htie⟩
      · rcases hmem with h | h
        · left; exact h
        · right; exact List.mem_cons_of_mem _ h
      · intro x hx
        rcases List.mem_cons.mp hx with h | h
        · rw [h]; exact le_trans hle hqp
        · exact hall x h

theorem minFoldl_tie : ∀ (l : List (VertexId × Nat)) (q : VertexId × Nat),
    (∀ p ∈ l, q.1 < p.1) → l.Pairwise (fun a b => a.1 < b.1) →
    ∀ p ∈ q :: l, p.2 = (l.foldl minStep q).2 → (l.foldl minStep q).1 ≤ p.1 := by
  intro l
  induction l with
  | nil =>
    intro q _ _ p hp he
    simp only [List.foldl_nil]
    rcases List.mem_cons.mp hp with h | h
    · rw [h]
    · cases h
  | cons a rest ih =>
    intro q hlt hpw p hp he
    simp only [List.foldl_cons] at he ⊢
    have hrest_pw := (List.pairwise_cons.mp hpw).2
    by_cases hc : a.2 < q.2
    · have hq' : minStep q a = a := if_pos hc
      rw [hq'] at he ⊢
      have hrest_lt : ∀ y ∈ rest, a.1 < y.1 := (List.pairwise_cons.mp hpw).1
      rcases List.mem_cons.mp hp with h | h
      · subst h
        obtain ⟨_, hle, _, _⟩ := minFoldl_spec rest a
        exfalso
        have h2 : (rest.foldl minStep a).2 < p.2 := lt_of_le_of_lt hle hc
        exact absurd he (ne_of_gt h2)
      · exact ih a hrest_lt hrest_pw p h he
    · have hq' : minStep q a = q := if_neg hc
      rw [hq'] at he ⊢
      have hrest_lt : ∀ y ∈ rest, q.1 < y.1 :=
        fun y hy => hlt y (List.mem_cons_of_mem _ hy)
      rcases List.mem_cons.mp hp with h | h
      · rw [h] at he ⊢
        exact ih q hrest_lt hrest_pw q (List.mem_cons_self _ _) he
      · rcases List.mem_cons.mp h with h' | h'
        · rw [h'] at he ⊢
          obtain ⟨_, hle, _, htie⟩ := minFoldl_spec rest q
          have h4 : q.2 ≤ (rest.foldl minStep q).2 := by
            rw [← he]; exact Nat.le_of_not_lt hc
          have hrq := htie (le_antisymm hle h4)
          rw [hrq]
          exact le_of_lt (hlt a (List.mem_cons_self _ _))
        · exact ih q hrest_lt hrest_pw p (List.mem_cons_of_mem _ h') he

theorem foldl_optionMin (l : List (VertexId × Nat)) (q : VertexId × Nat) :
    l.foldl (fun acc p => match acc with
      | none => some p
      | some q' => some (minStep q' p)) (some q) = some (l.foldl minStep q) := by
  induction l generalizing q with
  | nil => rfl
  | cons p rest ih => simp only [List.foldl_cons]; exact ih (minStep q p)

/-- `vertex_with_min_indegree(graph)`
(src/fas/divide_and_conquer_by_order_heuristic.rs): map every vertex to its
inbound-edge count and take `min_by` on that count (first minimum wins, as
in Rust); `unwrap` is modelled by `getD`, the callers only reach it on a
nonempty graph. -/
def vertex_with_min_indegree (g : HashTable) : VertexId :=
  (((g.vertices.map (fun v => (v, (g.edges_in v).length))).foldl
    (fun acc p => match acc with
      | none => some p
      | some q => some (minStep q p)) none).getD (0, 0)).1

theorem vertices_pairwise_lt (g : HashTable) : g.vertices.Pairwise (· < ·) := by
  unfold HashTable.vertices
  rw [List.pairwise_map]
  exact g.sorted

theorem vertices_nodup (g : HashTable) : g.vertices.Nodup :=
  (vertices_pairwise_lt g).imp ne_of_lt

theorem vertex_with_min_indegree_spec (g : HashTable) (h : g.vertices ≠ []) :
    vertex_with_min_indegree g ∈ g.vertices ∧
    (∀ u ∈ g.vertices,
      (g.edges_in (vertex_with_min_indegree g)).length ≤ (g.edges_in u).length) ∧
    (∀ u ∈ g.vertices,
      (g.edges_in u).length = (g.edges_in (vertex_with_min_indegree g)).length →
        vertex_with_min_indegree g ≤ u) := by
  obtain ⟨v0, vs, hv⟩ : ∃ v0 vs, g.vertices = v0 :: vs := by
    cases hvert : g.vertices with
    | nil => exact absurd hvert h
    | cons a l => exact ⟨a, l, rfl⟩
  have hkey : g.vertices.map (fun v => (v, (g.edges_in v).length)) =
      (v0, (g.edges_in v0).length) :: vs.map (fun v => (v, (g.edges_in v).length)) := by
    rw [hv]; rfl
  set key := fun v : VertexId => (v, (g.edges_in v).length) with hkeydef
  set L := vs.map key with hL
  set r := L.foldl minStep (key v0) with hr
  have hmin : vertex_with_min_indegree g = r.1 := by
    unfold vertex_with_min_indegree
    rw [hkey]
    rw [List.foldl_cons]
    show ((L.foldl (fun acc p => match acc with
      | none => some p
      | some q => some (minStep q p)) (some (key v0))).getD (0, 0)).1 = r.1
    rw [foldl_optionMin]
    rfl
  have hpw : (key v0 :: L).Pairwise (fun a b : VertexId × Nat => a.1 < b.1) := by
    rw [← hkey, List.pairwise_map]
    exact vertices_pairwise_lt g
  obtain ⟨hmem, hle, hall, htie⟩ := minFoldl_spec L (key v0)
  have hrmem : r ∈ key v0 :: L := by
    rcases hmem with hm | hm
    · rw [hr, hm]; exact List.mem_cons_self _ _
    · rw [hr]; exact List.mem_cons_of_mem _ hm
  have hrkey : r = key r.1 := by
    rcases List.mem_cons.mp hrmem with hm | hm
    · rw [hm]
    · rcases List.mem_map.mp hm with ⟨u, _, hu⟩
      rw [← hu]
    
  have hr2 : r.2 = (g.edges_in r.1).length := by
    conv_lhs => rw [hrkey]
  have hmemv : r.1 ∈ g.vertices := by
    have : r ∈ g.vertices.map key := by rw [hkey]; exact hrmem
    rcases List.mem_map.mp this with ⟨u, hu, he⟩
    have : u = r.1 := by rw [← he]
    rw [← this]; exact hu
  refine ⟨by rw [hmin]; exact hmemv, ?_, ?_⟩
  · intro u hu
    rw [hmin, ← hr2]
    rw [hv] at hu
    rcases List.mem_cons.mp hu with h' | h'
    · rw [h']; exact hle
    · exact hall (key u) (List.mem_map_of_mem key h')
  · intro u hu hequ
    have hkeyu : (key u).2 = r.2 := by
      rw [hr2, ← hmin]; exact hequ
    have htielt : ∀ p ∈ key v0 :: L, p.2 = r.2 → r.1 ≤ p.1 := by
      have hlt0 : ∀ p ∈ L, (key v0).1 < p.1 := (List.pairwise_cons.mp hpw).1
      exact minFoldl_tie L (key v0) hlt0 (List.pairwise_cons.mp hpw).2
    have hmemk : key u ∈ key v0 :: L := by
      rw [← hkey]; exact List.mem_map_of_mem key hu
    have := htielt (key u) hmemk hkeyu
    rw [hmin]
    exact this

/-- Modelled from the spec: `TopologicalSort::sort_by_indegree_asc`
(crate::ordering::topological_sort) is not under src/.  Per spec section 4.3 it
returns the vertices sorted by ascending indegree, computed once at call
time, with ties broken by ascending vertex identifier.  Here: insertion
step of a sort on the key (indegree, vertex id). -/
def insertByKey (g : HashTable) (v : VertexId) : List VertexId → List VertexId
  | [] => [v]
  | w :: ws =>
    if (g.edges_in v).length < (g.edges_in w).length ∨
       ((g.edges_in v).length = (g.edges_in w).length ∧ v ≤ w) then
      v :: w :: ws
    else w :: insertByKey g v ws

/-- Modelled from the spec: the full static sort of spec section 4.3
(ascending indegree, ties by ascending vertex id). -/
def sort_by_indegree_asc (g : HashTable) : List VertexId :=
  g.vertices.foldr (insertByKey g) []

theorem insertByKey_perm (g : HashTable) (v : VertexId) (l : List VertexId) :
    (insertByKey g v l).Perm (v :: l) := by
  induction l with
  | nil => simp [insertByKey]
  | cons w ws ih =>
    simp only [insertByKey]
    split
    · exact List.Perm.refl _
    · exact (ih.cons w).trans (List.Perm.swap v w ws)

theorem sort_by_indegree_asc_perm (g : HashTable) :
    (sort_by_indegree_asc g).Perm g.vertices := by
  unfold sort_by_indegree_asc
  induction g.vertices with
  | nil => exact List.Perm.refl _
  | cons v vs ih =>
    simp only [List.foldr_cons]
    exact (insertByKey_perm g v _).trans (ih.cons v)

/-- `subgraph(graph, vertices_to_keep)`
(src/fas/divide_and_conquer_by_order_heuristic.rs): collect every outbound
edge whose both endpoints are kept, and build a fresh graph from those
edges alone (`HashTable::from_edges` — so vertices isolated inside the kept
set are not retained). -/
def subgraph (graph : HashTable) (vertices_to_keep : List VertexId) : HashTable :=
  HashTable.from_edges
    ((graph.vertices.flatMap (fun v => graph.edges_out v)).filter
      (fun e => vertices_to_keep.contains e.1 && vertices_to_keep.contains e.2))

theorem mem_vertices_add_edge (g : HashTable) (e : Edge) :
    ∀ k ∈ (g.add_edge e).vertices, k = e.1 ∨ k = e.2 ∨ k ∈ g.vertices := by
  intro k hk
  rcases List.mem_map.mp hk with ⟨q, hq, rfl⟩
  rcases keys_upsertRaw _ _ _ _ q hq with h | h
  · right; left; exact h
  · rcases List.mem_map.mp h with ⟨q2, hq2, he⟩
    rcases keys_upsertRaw _ _ _ _ q2 hq2 with h2 | h2
    · left; rw [← he]; exact h2
    · right; right
      show q.1 ∈ g.data.map Prod.fst
      rw [← he]; exact h2

theorem mem_vertices_foldl_add_edge :
    ∀ (es : List Edge) (g : HashTable) (k : VertexId),
      k ∈ (es.foldl HashTable.add_edge g).vertices →
      k ∈ g.vertices ∨ ∃ e ∈ es, k = e.1 ∨ k = e.2 := by
  intro es
  induction es with
  | nil =>
    intro g k h
    left
    simpa using h
  | cons e rest ih =>
    intro g k h
    simp only [List.foldl_cons] at h
    rcases ih (g.add_edge e) k h with h2 | h2
    · rcases mem_vertices_add_edge g e k h2 with h3 | h3 | h3
      · right; exact ⟨e, List.mem_cons_self _ _, Or.inl h3⟩
      · right; exact ⟨e, List.mem_cons_self _ _, Or.inr h3⟩
      · left; exact h3
    · rcases h2 with ⟨e2, he2, hk2⟩
      right; exact ⟨e2, List.mem_cons_of_mem _ he2, hk2⟩

theorem mem_vertices_from_edges (es : List Edge) (k : VertexId)
    (h : k ∈ (HashTable.from_edges es).vertices) : ∃ e ∈ es, k = e.1 ∨ k = e.2 := by
  rcases mem_vertices_foldl_add_edge es HashTable.new k h with h2 | h2
  · simp [HashTable.new, HashTable.vertices] at h2
  · exact h2

theorem vertices_subgraph_subset (graph : HashTable) (keep : List VertexId) :
    ∀ k ∈ (subgraph graph keep).vertices, k ∈ keep := by
  intro k hk
  unfold subgraph at hk
  rcases mem_vertices_from_edges _ _ hk with ⟨e, he, hke⟩
  have hp := List.of_mem_filter he
  rw [Bool.and_eq_true] at hp
  rcases hke with h | h
  · rw [h]
    exact List.mem_of_elem_eq_true hp.1
  · rw [h]
    exact List.mem_of_elem_eq_true hp.2

theorem length_le_of_nodup_subset {l1 l2 : List VertexId} (h : l1.Nodup)
    (hs : l1 ⊆ l2) : l1.length ≤ l2.length := by
  have h1 : l1.toFinset.card = l1.length := List.toFinset_card_of_nodup h
  have h2 : l1.toFinset ⊆ l2.toFinset := by
    intro x hx
    rw [List.mem_toFinset] at hx ⊢
    exact hs hx
  have h3 := Finset.card_le_card h2
  have h4 := List.toFinset_card_le l2
  omega

theorem order_subgraph_le (graph : HashTable) (keep : List VertexId) :
    (subgraph graph keep).order ≤ keep.length := by
  have h1 : (subgraph graph keep).vertices.Nodup := vertices_nodup _
  have h2 : (subgraph graph keep).vertices ⊆ keep :=
    fun k hkk => vertices_subgraph_subset _ _ k hkk
  have h3 := length_le_of_nodup_subset h1 h2
  have h4 : (subgraph graph keep).vertices.length = (subgraph graph keep).order :=
    List.length_map _ _
  omega

theorem vertices_ne_nil_of_edge_count (g : HashTable) (h : g.edge_count ≠ 0) :
    g.vertices ≠ [] := by
  intro hv
  apply h
  have hd : g.data = [] := by
    cases hdata : g.data with
    | nil => rfl
    | cons p rest =>
      rw [HashTable.vertices, hdata] at hv
      simp at hv
  unfold HashTable.edge_count
  rw [hd]
  rfl

theorem order_pos_of_edge_count (g : HashTable) (h : g.edge_count ≠ 0) :
    0 < g.order := by
  have h1 := vertices_ne_nil_of_edge_count g h
  have h2 : g.vertices.length = g.order := List.length_map _ _
  cases hv : g.vertices with
  | nil => exact absurd hv h1
  | cons a l => rw [hv] at h2; simp at h2; omega

theorem order_remove_vertex_lt (g : HashTable) (v : VertexId)
    (hv : v ∈ g.vertices) : (g.remove_vertex v).order < g.order := by
  show ((g.data.map (fun p => (p.1, p.2.erase v))).filter (fun p => p.1 != v)).length
      < g.data.length
  have hlen : (g.data.map (fun p => (p.1, p.2.erase v))).length = g.data.length :=
    List.length_map _ _
  rw [← hlen]
  apply List.length_filter_lt_length_iff_exists.mpr
  rcases List.mem_map.mp hv with ⟨p, hp, he⟩
  refine ⟨(p.1, p.2.erase v), List.mem_map_of_mem _ hp, ?_⟩
  simp [he]

theorem lookup_cons_self {k : VertexId} {val : List VertexId}
    {rest : List (VertexId × List VertexId)} :
    ((k, val) :: rest).lookup k = some val := by
  rw [List.lookup_cons]
  have hb : (k == k) = true := beq_self_eq_true k
  rw [hb]

theorem lookup_cons_ne {k a : VertexId} {val : List VertexId}
    {rest : List (VertexId × List VertexId)} (h : k ≠ a) :
    ((a, val) :: rest).lookup k = rest.lookup k := by
  rw [List.lookup_cons]
  have hb : (k == a) = false := beq_eq_false_iff_ne.mpr h
  rw [hb]

theorem lookup_eq_none_of_not_mem {l : List (VertexId × List VertexId)} {k : VertexId}
    (h : k ∉ l.map Prod.fst) : l.lookup k = none := by
  induction l with
  | nil => rfl
  | cons p rest ih =>
    rw [List.map_cons] at h
    have h1 : k ≠ p.1 := fun he => h (by rw [he]; exact List.mem_cons_self _ _)
    have h2 : k ∉ rest.map Prod.fst := fun hm => h (List.mem_cons_of_mem _ hm)
    rw [← Prod.mk.eta (p := p), lookup_cons_ne h1]
    exact ih h2

theorem mem_of_lookup_eq_some {l : List (VertexId × List VertexId)} {k : VertexId}
    {val : List VertexId} (h : l.lookup k = some val) : (k, val) ∈ l := by
  induction l with
  | nil => cases h
  | cons p rest ih =>
    by_cases he : k = p.1
    · rw [← Prod.mk.eta (p := p), ← he, lookup_cons_self] at h
      rw [← Prod.mk.eta (p := p), ← he, ← Option.some_inj.mp h]
      exact List.mem_cons_self _ _
    · rw [← Prod.mk.eta (p := p), lookup_cons_ne he] at h
      exact List.mem_cons_of_mem _ (ih h)

theorem lookup_eq_some_of_mem {l : List (VertexId × List VertexId)}
    (hs : l.Pairwise (fun a b => a.1 < b.1)) {k : VertexId} {val : List VertexId}
    (h : (k, val) ∈ l) : l.lookup k = some val := by
  induction l with
  | nil => cases h
  | cons p rest ih =>
    rcases List.pairwise_cons.mp hs with ⟨hp, hrest⟩
    rcases List.mem_cons.mp h with h1 | h1
    · rw [← h1]
      exact lookup_cons_self
    · have hk : p.1 < k := hp (k, val) h1
      have hne : k ≠ p.1 := fun he => by rw [he] at hk; exact lt_irrefl _ hk
      rw [← Prod.mk.eta (p := p), lookup_cons_ne hne]
      exact ih hrest h1

theorem lookup_mem_keys {l : List (VertexId × List VertexId)} {k : VertexId}
    {val : List VertexId} (h : l.lookup k = some val) : k ∈ l.map Prod.fst := by
  have := mem_of_lookup_eq_some h
  exact List.mem_map_of_mem Prod.fst this

theorem upsertRaw_mem_id (k : VertexId) (f : List VertexId → List VertexId)
    (d : List VertexId) :
    ∀ (l : List (VertexId × List VertexId)),
      l.Pairwise (fun a b => a.1 < b.1) → k ∈ l.map Prod.fst →
      (∀ p ∈ l, p.1 = k → f p.2 = p.2) → upsertRaw k f d l = l := by
  intro l
  induction l with
  | nil => intro _ hmem _; simp at hmem
  | cons p rest ih =>
    intro hs hmem hf
    simp only [upsertRaw]
    by_cases h2 : k = p.1
    · have h1 : ¬ k < p.1 := by rw [h2]; exact lt_irrefl _
      rw [if_neg h1, if_pos h2]
      have hfp : f p.2 = p.2 := hf p (List.mem_cons_self _ _) h2.symm
      rw [h2, hfp, Prod.mk.eta]
    · have hkr : k ∈ rest.map Prod.fst := by
        rw [List.map_cons] at hmem
        rcases List.mem_cons.mp hmem with h | h
        · exact absurd h h2
        · exact h
      have h1 : ¬ k < p.1 := by
        rcases List.mem_map.mp hkr with ⟨q, hq, he⟩
        have hlt : p.1 < q.1 := (List.pairwise_cons.mp hs).1 q hq
        rw [he] at hlt
        intro hk
        exact lt_irrefl _ (lt_trans hk hlt)
      rw [if_neg h1, if_neg h2]
      congr 1
      exact ih (List.pairwise_cons.mp hs).2 hkr
        (fun q hq hqk => hf q (List.mem_cons_of_mem _ hq) hqk)

theorem add_edge_noop (g : HashTable) (e : Edge)
    (h1 : g.has_edge e.1 e.2 = true) (h2 : e.2 ∈ g.vertices) :
    g.add_edge e = g := by
  apply HashTable.ext
  show upsertRaw e.2 id []
      (upsertRaw e.1 (fun l => if l.contains e.2 then l else l ++ [e.2]) [e.2] g.data)
    = g.data
  obtain ⟨val, hval, hcont⟩ : ∃ val, g.data.lookup e.1 = some val ∧ val.contains e.2 := by
    unfold HashTable.has_edge at h1
    cases hl : g.data.lookup e.1 with
    | none => rw [hl] at h1; cases h1
    | some val => rw [hl] at h1; exact ⟨val, rfl, h1⟩
  have hmem1 : e.1 ∈ g.data.map Prod.fst := lookup_mem_keys hval
  have hinner : upsertRaw e.1 (fun l => if l.contains e.2 then l else l ++ [e.2]) [e.2]
      g.data = g.data := by
    apply upsertRaw_mem_id e.1 _ _ g.data g.sorted hmem1
    intro p hp hpk
    have : g.data.lookup e.1 = some p.2 := by
      apply lookup_eq_some_of_mem g.sorted
      rw [← hpk, Prod.mk.eta]
      exact hp
    rw [hval] at this
    have hv2 : val = p.2 := Option.some_inj.mp this
    rw [← hv2, hcont]
    simp
  rw [hinner]
  exact upsertRaw_mem_id e.2 id [] g.data g.sorted h2 (fun _ _ _ => rfl)

theorem foldl_add_edge_noop (g : HashTable) :
    ∀ es : List Edge, (∀ e ∈ es, g.add_edge e = g) → es.foldl HashTable.add_edge g = g := by
  intro es
  induction es with
  | nil => intro _; rfl
  | cons e rest ih =>
    intro h
    simp only [List.foldl_cons]
    rw [h e (List.mem_cons_self _ _)]
    exact ih (fun x hx => h x (List.mem_cons_of_mem _ hx))

theorem from_edges_self_loops (v : VertexId) :
    ∀ es : List Edge, (∀ e ∈ es, e = (v, v)) →
      (HashTable.from_edges es).edge_count ≤ 1 := by
  intro es h
  cases es with
  | nil => exact Nat.zero_le 1
  | cons e rest =>
    have he : e = (v, v) := h e (List.mem_cons_self _ _)
    unfold HashTable.from_edges
    rw [List.foldl_cons, he]
    have hg1 : (HashTable.new.add_edge (v, v)).data = [(v, [v])] := by
      show upsertRaw v id []
          (upsertRaw v (fun l => if l.contains v then l else l ++ [v]) [v] []) = [(v, [v])]
      simp [upsertRaw]
    have hg1' : HashTable.new.add_edge (v, v) = ⟨[(v, [v])], by simp⟩ :=
      HashTable.ext hg1
    rw [hg1']
    have hrest : ∀ e ∈ rest, (HashTable.mk [(v, [v])] (by simp)).add_edge e
        = ⟨[(v, [v])], by simp⟩ := by
      intro e2 he2
      have he2v : e2 = (v, v) := h e2 (List.mem_cons_of_mem _ he2)
      rw [he2v]
      apply add_edge_noop
      · show HashTable.has_edge _ v v = true
        unfold HashTable.has_edge
        rw [lookup_cons_self]
        simp
      · show v ∈ [(v, [v])].map Prod.fst
        simp
    rw [foldl_add_edge_noop _ rest hrest]
    show ([(v, [v])].map (fun p => p.2.length)).sum ≤ 1
    simp

theorem subgraph_singleton_edge_count (g : HashTable) (v : VertexId) :
    (subgraph g [v]).edge_count ≤ 1 := by
  unfold subgraph
  apply from_edges_self_loops v
  intro e he
  have hp := List.of_mem_filter he
  rw [Bool.and_eq_true] at hp
  have h1 : e.1 ∈ [v] := List.mem_of_elem_eq_true hp.1
  have h2 : e.2 ∈ [v] := List.mem_of_elem_eq_true hp.2
  simp only [List.mem_singleton] at h1 h2
  rw [← Prod.mk.eta (p := e), h1, h2]

/-- `order(g)` (src/fas/divide_and_conquer_by_order_heuristic.rs): the
ESL divide-and-conquer ordering.  No edges: the vertices as stored.  Odd
edge count: remove a minimum-indegree vertex, order the rest, prepend.
Even edge count: split the indegree-sorted vertex list in half, order the
two induced `subgraph`s, concatenate. -/
def order (g : HashTable) : List VertexId :=
  if h0 : g.edge_count = 0 then g.vertices
  else if hodd : g.edge_count % 2 = 1 then
    vertex_with_min_indegree g :: order (g.remove_vertex (vertex_with_min_indegree g))
  else
    order (subgraph g ((sort_by_indegree_asc g).take ((sort_by_indegree_asc g).length / 2)))
      ++
    order (subgraph g ((sort_by_indegree_asc g).drop ((sort_by_indegree_asc g).length / 2)))
termination_by (g.order, g.edge_count)
decreasing_by
  · apply Prod.Lex.left
    apply order_remove_vertex_lt
    exact (vertex_with_min_indegree_spec g (vertices_ne_nil_of_edge_count g h0)).1
  · apply Prod.Lex.left
    have hb := order_subgraph_le g
      ((sort_by_indegree_asc g).take ((sort_by_indegree_asc g).length / 2))
    rw [List.length_take] at hb
    have hperm := sort_by_indegree_asc_perm g
    have hlen : (sort_by_indegree_asc g).length = g.order := by
      rw [hperm.length_eq]; exact List.length_map _ _
    have hpos : 0 < g.order := order_pos_of_edge_count g h0
    omega
  · have hperm := sort_by_indegree_asc_perm g
    have hlen : (sort_by_indegree_asc g).length = g.order := by
      rw [hperm.length_eq]; exact List.length_map _ _
    have hpos : 0 < g.order := order_pos_of_edge_count g h0
    by_cases hge2 : 2 ≤ g.order
    · apply Prod.Lex.left
      have hb := order_subgraph_le g
        ((sort_by_indegree_asc g).drop ((sort_by_indegree_asc g).length / 2))
      rw [List.length_drop] at hb
      omega
    · have h1 : g.order = 1 := by omega
      obtain ⟨v, hv⟩ : ∃ v, sort_by_indegree_asc g = [v] := by
        have hl1 : (sort_by_indegree_asc g).length = 1 := by rw [hlen, h1]
        cases hs : sort_by_indegree_asc g with
        | nil => rw [hs] at hl1; simp at hl1
        | cons a l =>
          rw [hs] at hl1
          simp only [List.length_cons] at hl1
          have : l = [] := List.length_eq_zero.mp (by omega)
          rw [this]
          exact ⟨a, rfl⟩
      have hkeep : (sort_by_indegree_asc g).drop ((sort_by_indegree_asc g).length / 2)
          = [v] := by rw [hv]; simp
      rw [hkeep]
      have hecle := subgraph_singleton_edge_count g v
      have hole := order_subgraph_le g [v]
      have hecg : 2 ≤ g.edge_count := by omega
      rcases Nat.lt_or_ge (subgraph g [v]).order g.order with hlt | hge
      · exact Prod.Lex.left _ _ hlt
      · have heq : (subgraph g [v]).order = g.order := by
          simp only [List.length_singleton] at hole
          omega
        rw [heq]
        exact Prod.Lex.right _ (by omega)

/-- `collect_leftward_edges(graph, ordering)`: for each vertex of the
ordering, insert every outbound edge of the ORIGINAL graph whose target
identifier is smaller than the source vertex (`edge.1 < v` in the Rust —
a comparison of vertex identifiers).  `HashSet<Edge>` is a `Finset`. -/
def collect_leftward_edges (graph : HashTable) (ordering : List VertexId) : Finset Edge :=
  ordering.foldl (fun s v =>
    (graph.edges_out v).foldl (fun s2 e => if e.2 < v then insert e s2 else s2) s) ∅

/-- `DivideAndConquerByOrderHeuristic::feedback_arc_set`: run `order` on a
clone of the graph and extract the leftward edges once, over the whole
ordering and the original graph. -/
def feedback_arc_set (g : HashTable) : Finset Edge :=
  collect_leftward_edges g (order g)

/-- A graph is acyclic when no vertex reaches itself along one or more
directed edges. -/
def HashTable.Acyclic (g : HashTable) : Prop :=
  ∀ v : VertexId, ¬ Relation.TransGen (fun a b => g.has_edge a b = true) v v

theorem acyclic_of_rank (g : HashTable) (f : VertexId → Nat)
    (h : ∀ a b, g.has_edge a b = true → f a < f b) : g.Acyclic := by
  intro v hv
  have mono : ∀ a b : VertexId,
      Relation.TransGen (fun a b => g.has_edge a b = true) a b → f a < f b := by
    intro a b hab
    induction hab with
    | single h1 => exact h _ _ h1
    | tail _ h1 ih => exact lt_trans ih (h _ _ h1)
  exact lt_irrefl _ (mono v v hv)

theorem lookup_isSome_of_mem_keys {l : List (VertexId × List VertexId)}
    (hs : l.Pairwise (fun a b => a.1 < b.1)) {k : VertexId}
    (h : k ∈ l.map Prod.fst) : ∃ val, l.lookup k = some val := by
  rcases List.mem_map.mp h with ⟨p, hp, he⟩
  have hmem : (k, p.2) ∈ l := by rw [← he, Prod.mk.eta]; exact hp
  exact ⟨p.2, lookup_eq_some_of_mem hs hmem⟩

theorem mem_edges_out {g : HashTable} {v : VertexId} {e : Edge} :
    e ∈ g.edges_out v ↔ e.1 = v ∧ g.has_edge v e.2 = true := by
  unfold HashTable.edges_out HashTable.has_edge
  cases hl : g.data.lookup v with
  | none =>
    simp [hl]
  | some l =>
    simp only [hl, Option.getD_some, List.mem_map]
    constructor
    · rintro ⟨w, hw, rfl⟩
      exact ⟨rfl, List.elem_eq_true_of_mem hw⟩
    · rintro ⟨h1, h2⟩
      exact ⟨e.2, List.mem_of_elem_eq_true h2, by rw [← h1]⟩

theorem mem_foldl_append {β : Type} (f : VertexId → List β) :
    ∀ (l : List VertexId) (acc : List β) (x : β),
      x ∈ l.foldl (fun es v => es ++ f v) acc ↔ x ∈ acc ∨ ∃ v ∈ l, x ∈ f v := by
  intro l
  induction l with
  | nil => intro acc x; simp
  | cons v vs ih =>
    intro acc x
    simp only [List.foldl_cons]
    rw [ih]
    simp only [List.mem_append, List.mem_cons]
    constructor
    · rintro (⟨h | h⟩ | ⟨w, hw, hx⟩)
      · exact Or.inl h
      · exact Or.inr ⟨v, Or.inl rfl, h⟩
      · exact Or.inr ⟨w, Or.inr hw, hx⟩
    · rintro (h | ⟨w, hw | hw, hx⟩)
      · exact Or.inl (Or.inl h)
      · exact Or.inl (Or.inr (hw ▸ hx))
      · exact Or.inr ⟨w, hw, hx⟩

theorem mem_all_edges {g : HashTable} {e : Edge} :
    e ∈ g.all_edges ↔ g.has_edge e.1 e.2 = true := by
  unfold HashTable.all_edges
  rw [mem_foldl_append]
  simp only [List.not_mem_nil, false_or]
  constructor
  · rintro ⟨v, _, hv⟩
    rcases mem_edges_out.mp hv with ⟨h1, h2⟩
    rw [h1]
    exact h2
  · intro h
    refine ⟨e.1, ?_, mem_edges_out.mpr ⟨rfl, h⟩⟩
    unfold HashTable.has_edge at h
    cases hl : g.data.lookup e.1 with
    | none => rw [hl] at h; cases h
    | some l => exact lookup_mem_keys hl

theorem acyclic_of_rank_edges (g : HashTable) (f : VertexId → Nat)
    (h : ∀ e ∈ g.all_edges, f e.1 < f e.2) : g.Acyclic := by
  apply acyclic_of_rank g f
  intro a b hab
  exact h (a, b) (mem_all_edges.mpr hab)

theorem mem_collect_leftward_inner {g : HashTable} {v : VertexId} :
    ∀ (l : List Edge) (s : Finset Edge) (e : Edge),
      e ∈ l.foldl (fun s2 e2 => if e2.2 < v then insert e2 s2 else s2) s ↔
        e ∈ s ∨ (e ∈ l ∧ e.2 < v) := by
  intro l
  induction l with
  | nil => intro s e; simp
  | cons x xs ih =>
    intro s e
    simp only [List.foldl_cons]
    rw [ih]
    by_cases hx : x.2 < v
    · rw [if_pos hx]
      simp only [Finset.mem_insert, List.mem_cons]
      constructor
      · rintro ((h | h) | ⟨h1, h2⟩)
        · exact Or.inr ⟨Or.inl h, h ▸ hx⟩
        · exact Or.inl h
        · exact Or.inr ⟨Or.inr h1, h2⟩
      · rintro (h | ⟨h1 | h1, h2⟩)
        · exact Or.inl (Or.inr h)
        · exact Or.inl (Or.inl h1)
        · exact Or.inr ⟨h1, h2⟩
    · rw [if_neg hx]
      simp only [List.mem_cons]
      constructor
      · rintro (h | ⟨h1, h2⟩)
        · exact Or.inl h
        · exact Or.inr ⟨Or.inr h1, h2⟩
      · rintro (h | ⟨h1 | h1, h2⟩)
        · exact Or.inl h
        · exact absurd (h1 ▸ h2) hx
        · exact Or.inr ⟨h1, h2⟩

theorem mem_collect_leftward {g : HashTable} {e : Edge} :
    ∀ (ord : List VertexId) (s : Finset Edge),
      e ∈ ord.foldl (fun s v =>
          (g.edges_out v).foldl (fun s2 e2 => if e2.2 < v then insert e2 s2 else s2) s) s ↔
        e ∈ s ∨ ∃ v ∈ ord, e ∈ g.edges_out v ∧ e.2 < v := by
  intro ord
  induction ord with
  | nil => intro s; simp
  | cons v vs ih =>
    intro s
    simp only [List.foldl_cons]
    rw [ih, @mem_collect_leftward_inner g v]
    simp only [List.mem_cons]
    constructor
    · rintro ((h | ⟨h1, h2⟩) | ⟨w, hw, h1, h2⟩)
      · exact Or.inl h
      · exact Or.inr ⟨v, Or.inl rfl, h1, h2⟩
      · exact Or.inr ⟨w, Or.inr hw, h1, h2⟩
    · rintro (h | ⟨w, hw | hw, h1, h2⟩)
      · exact Or.inl (Or.inl h)
      · exact Or.inl (Or.inr ⟨hw ▸ h1, hw ▸ h2⟩)
      · exact Or.inr ⟨w, hw, h1, h2⟩

theorem mem_collect_leftward_edges {g : HashTable} {ord : List VertexId} {e : Edge} :
    e ∈ collect_leftward_edges g ord ↔ ∃ v ∈ ord, e ∈ g.edges_out v ∧ e.2 < v := by
  unfold collect_leftward_edges
  rw [mem_collect_leftward]
  simp

/-- `collect_leftward_edges` computes exactly: original edges whose target
identifier is below the source identifier and whose source occurs in the
ordering. -/
theorem collect_leftward_edges_eq (g : HashTable) (ord : List VertexId) :
    collect_leftward_edges g ord =
      (g.all_edges.filter (fun e => decide (e.2 < e.1) && ord.contains e.1)).toFinset := by
  apply Finset.ext
  intro e
  rw [mem_collect_leftward_edges, List.mem_toFinset, List.mem_filter]
  constructor
  · rintro ⟨v, hv, h1, h2⟩
    rcases mem_edges_out.mp h1 with ⟨he1, he2⟩
    constructor
    · rw [mem_all_edges, he1]
      exact he2
    · rw [Bool.and_eq_true, decide_eq_true_iff]
      exact ⟨he1 ▸ h2, List.elem_eq_true_of_mem (he1 ▸ hv)⟩
  · rintro ⟨h1, h2⟩
    rw [Bool.and_eq_true, decide_eq_true_iff] at h2
    refine ⟨e.1, List.mem_of_elem_eq_true h2.2, mem_edges_out.mpr ⟨rfl, ?_⟩, h2.1⟩
    exact mem_all_edges.mp h1

/-- One comparison step of a maximum fold where the accumulator is kept on
ties, so the first (lowest-identifier) maximum wins. -/
def maxStepZ (q p : VertexId × Int) : VertexId × Int := if q.2 < p.2 then p else q

theorem maxFoldlZ_mem : ∀ (l : List (VertexId × Int)) (q : VertexId × Int),
    l.foldl maxStepZ q = q ∨ l.foldl maxStepZ q ∈ l := by
  intro l
  induction l with
  | nil => intro q; left; rfl
  | cons p rest ih =>
    intro q
    simp only [List.foldl_cons]
    rcases ih (maxStepZ q p) with h | h
    · rw [h]
      unfold maxStepZ
      by_cases hc : q.2 < p.2
      · rw [if_pos hc]; right; exact List.mem_cons_self _ _
      · rw [if_neg hc]; left; rfl
    · right; exact List.mem_cons_of_mem _ h

theorem foldl_optionMax (l : List (VertexId × Int)) (q : VertexId × Int) :
    l.foldl (fun acc p => match acc with
      | none => some p
      | some q' => some (maxStepZ q' p)) (some q) = some (l.foldl maxStepZ q) := by
  induction l generalizing q with
  | nil => rfl
  | cons p rest ih => simp only [List.foldl_cons]; exact ih (maxStepZ q p)

/-- Modelled from the spec: `GreedyHeuristic::compute`
(src/algo/greedy_heuristic.rs) delegates the whole algorithm to
`petgraph::algo::feedback_arc_set::greedy_feedback_arc_set`, an external
crate that is not part of this repository.  Per spec section 4.4 the vertex
selected at each step maximizes out-degree minus in-degree among the
remaining vertices, ties broken by lowest identifier. -/
def vertex_with_max_out_minus_in (g : HashTable) : VertexId :=
  (((g.vertices.map (fun v =>
      (v, ((g.edges_out v).length : Int) - ((g.edges_in v).length : Int)))).foldl
    (fun acc p => match acc with
      | none => some p
      | some q => some (maxStepZ q p)) none).getD (0, 0)).1

theorem vertex_with_max_out_minus_in_mem (g : HashTable) (h : g.vertices ≠ []) :
    vertex_with_max_out_minus_in g ∈ g.vertices := by
  obtain ⟨v0, vs, hv⟩ : ∃ v0 vs, g.vertices = v0 :: vs := by
    cases hvert : g.vertices with
    | nil => exact absurd hvert h
    | cons a l => exact ⟨a, l, rfl⟩
  set key := fun v : VertexId =>
    (v, ((g.edges_out v).length : Int) - ((g.edges_in v).length : Int)) with hkeydef
  have hkey : g.vertices.map key = key v0 :: vs.map key := by rw [hv]; rfl
  set r := (vs.map key).foldl maxStepZ (key v0) with hr
  have hmin : vertex_with_max_out_minus_in g = r.1 := by
    unfold vertex_with_max_out_minus_in
    rw [hkey, List.foldl_cons]
    show ((((vs.map key)).foldl (fun acc p => match acc with
      | none => some p
      | some q => some (maxStepZ q p)) (some (key v0))).getD (0, 0)).1 = r.1
    rw [foldl_optionMax]
    rfl
  have hrmem : r ∈ key v0 :: vs.map key := by
    rcases maxFoldlZ_mem (vs.map key) (key v0) with h1 | h1
    · rw [hr, h1]; exact List.mem_cons_self _ _
    · rw [hr]; exact List.mem_cons_of_mem _ h1
  have : r ∈ g.vertices.map key := by rw [hkey]; exact hrmem
  rcases List.mem_map.mp this with ⟨u, hu, he⟩
  have hu1 : u = r.1 := by rw [← he]
  rw [hmin, ← hu1]
  exact hu

/-- Modelled from the spec: the greedy ordering of spec section 4.4 —
repeatedly take the vertex with the maximal degree differential, append it
to the order, and remove it (with its incident edges) from the working
graph. -/
def greedy_order (g : HashTable) : List VertexId :=
  if h : g.vertices = [] then []
  else
    vertex_with_max_out_minus_in g ::
      greedy_order (g.remove_vertex (vertex_with_max_out_minus_in g))
termination_by g.order
decreasing_by
  exact order_remove_vertex_lt g _ (vertex_with_max_out_minus_in_mem g h)

/-- Modelled from the spec: the feedback set of the greedy heuristic —
edges pointing leftward in the greedy ordering (by position). -/
def greedy_feedback_arc_set (g : HashTable) : Finset Edge :=
  (g.all_edges.filter (fun e =>
    (greedy_order g).indexOf e.2 < (greedy_order g).indexOf e.1)).toFinset

/-- Data-model invariant: every vertex referenced by an edge appears as a
key of the mapping. -/
def HashTable.Closed (g : HashTable) : Prop :=
  ∀ p ∈ g.data, ∀ w ∈ p.2, w ∈ g.vertices

/-- Data-model invariant: no neighbor list has duplicates. -/
def HashTable.NodupLists (g : HashTable) : Prop :=
  ∀ p ∈ g.data, p.2.Nodup

/-- Both data-model invariants together (well-formedness as produced by
the mutating operations). -/
def HashTable.WF (g : HashTable) : Prop := g.Closed ∧ g.NodupLists

instance (g : HashTable) : Decidable g.Closed := by
  unfold HashTable.Closed; infer_instance

instance (g : HashTable) : Decidable g.NodupLists := by
  unfold HashTable.NodupLists; infer_instance

instance (g : HashTable) : Decidable g.WF := by
  unfold HashTable.WF; infer_instance

theorem vals_upsertRaw (k : VertexId) (f : List VertexId → List VertexId)
    (d : List VertexId) :
    ∀ l : List (VertexId × List VertexId), ∀ q ∈ upsertRaw k f d l,
      q = (k, d) ∨ q ∈ l ∨ ∃ p ∈ l, p.1 = k ∧ q = (k, f p.2) := by
  intro l
  induction l with
  | nil =>
    intro q hq
    simp only [upsertRaw, List.mem_singleton] at hq
    exact Or.inl hq
  | cons p rest ih =>
    intro q hq
    simp only [upsertRaw] at hq
    by_cases h1 : k < p.1
    · rw [if_pos h1] at hq
      rcases List.mem_cons.mp hq with h | h
      · exact Or.inl h
      · exact Or.inr (Or.inl h)
    · by_cases h2 : k = p.1
      · rw [if_neg h1, if_pos h2] at hq
        rcases List.mem_cons.mp hq with h | h
        · exact Or.inr (Or.inr ⟨p, List.mem_cons_self _ _, h2.symm, h⟩)
        · exact Or.inr (Or.inl (List.mem_cons_of_mem _ h))
      · rw [if_neg h1, if_neg h2] at hq
        rcases List.mem_cons.mp hq with h | h
        · exact Or.inr (Or.inl (h ▸ List.mem_cons_self _ _))
        · rcases ih q h with h3 | h3 | ⟨p2, hp2, hk2, hq2⟩
          · exact Or.inl h3
          · exact Or.inr (Or.inl (List.mem_cons_of_mem _ h3))
          · exact Or.inr (Or.inr ⟨p2, List.mem_cons_of_mem _ hp2, hk2, hq2⟩)

theorem mem_keys_upsertRaw_self (k : VertexId) (f : List VertexId → List VertexId)
    (d : List VertexId) :
    ∀ l : List (VertexId × List VertexId), k ∈ (upsertRaw k f d l).map Prod.fst := by
  intro l
  induction l with
  | nil => simp [upsertRaw]
  | cons p rest ih =>
    simp only [upsertRaw]
    by_cases h1 : k < p.1
    · rw [if_pos h1]; simp
    · by_cases h2 : k = p.1
      · rw [if_neg h1, if_pos h2]; simp
      · rw [if_neg h1, if_neg h2]
        rw [List.map_cons]
        exact List.mem_cons_of_mem _ ih

theorem mem_keys_upsertRaw_mono (k : VertexId) (f : List VertexId → List VertexId)
    (d : List VertexId) :
    ∀ l : List (VertexId × List VertexId), ∀ j ∈ l.map Prod.fst,
      j ∈ (upsertRaw k f d l).map Prod.fst := by
  intro l
  induction l with
  | nil => intro j hj; simp at hj
  | cons p rest ih =>
    intro j hj
    rw [List.map_cons] at hj
    simp only [upsertRaw]
    by_cases h1 : k < p.1
    · rw [if_pos h1]
      rw [List.map_cons, List.map_cons]
      exact List.mem_cons_of_mem _ hj
    · by_cases h2 : k = p.1
      · rw [if_neg h1, if_pos h2]
        rw [List.map_cons]
        rcases List.mem_cons.mp hj with h | h
        · rw [h, ← h2]; exact List.mem_cons_self _ _
        · exact List.mem_cons_of_mem _ h
      · rw [if_neg h1, if_neg h2]
        rw [List.map_cons]
        rcases List.mem_cons.mp hj with h | h
        · rw [h]; exact List.mem_cons_self _ _
        · exact List.mem_cons_of_mem _ (ih j h)

theorem vertices_add_edge_mono (g : HashTable) (e : Edge) :
    ∀ j ∈ g.vertices, j ∈ (g.add_edge e).vertices := by
  intro j hj
  exact mem_keys_upsertRaw_mono _ _ _ _ j (mem_keys_upsertRaw_mono _ _ _ _ j hj)

theorem target_mem_vertices_add_edge (g : HashTable) (e : Edge) :
    e.2 ∈ (g.add_edge e).vertices :=
  mem_keys_upsertRaw_self _ _ _ _

theorem WF_add_edge (g : HashTable) (e : Edge) (h : g.WF) : (g.add_edge e).WF := by
  obtain ⟨hc, hn⟩ := h
  have hinner : ∀ p ∈ upsertRaw e.1
      (fun l => if l.contains e.2 then l else l ++ [e.2]) [e.2] g.data,
      p.2.Nodup ∧ ∀ w ∈ p.2, w ∈ (g.add_edge e).vertices := by
    intro p hp
    rcases vals_upsertRaw _ _ _ _ p hp with h1 | h1 | ⟨p2, hp2, _, hq2⟩
    · rw [h1]
      refine ⟨List.nodup_singleton _, ?_⟩
      intro w hw
      rw [List.mem_singleton] at hw
      rw [hw]
      exact target_mem_vertices_add_edge g e
    · refine ⟨hn p h1, ?_⟩
      intro w hw
      exact vertices_add_edge_mono g e w (hc p h1 w hw)
    · rw [hq2]
      by_cases hcont : p2.2.contains e.2
      · simp only [if_pos hcont]
        refine ⟨hn p2 hp2, ?_⟩
        intro w hw
        exact vertices_add_edge_mono g e w (hc p2 hp2 w hw)
      · simp only [if_neg hcont]
        constructor
        · rw [List.nodup_append]
          refine ⟨hn p2 hp2, List.nodup_singleton _, ?_⟩
          intro a ha hb
          rw [List.mem_singleton] at hb
          rw [hb] at ha
          exact hcont (List.elem_eq_true_of_mem ha)
        · intro w hw
          rcases List.mem_append.mp hw with h2 | h2
          · exact vertices_add_edge_mono g e w (hc p2 hp2 w h2)
          · rw [List.mem_singleton] at h2
            rw [h2]
            exact target_mem_vertices_add_edge g e
  constructor
  · intro q hq
    rcases vals_upsertRaw _ _ _ _ q hq with h1 | h1 | ⟨p, hp, _, hq2⟩
    · rw [h1]; intro w hw; simp at hw
    · exact (hinner q h1).2
    · rw [hq2]
      exact (hinner p hp).2
  · intro q hq
    rcases vals_upsertRaw _ _ _ _ q hq with h1 | h1 | ⟨p, hp, _, hq2⟩
    · rw [h1]; exact List.nodup_nil
    · exact (hinner q h1).1
    · rw [hq2]
      exact (hinner p hp).1

theorem vertices_remove_edge (g : HashTable) (e : Edge) :
    (g.remove_edge e).vertices = g.vertices := by
  show ((g.data.map _).map Prod.fst) = g.data.map Prod.fst
  rw [List.map_map]
  apply List.map_congr_left
  intro p _
  by_cases hp : p.1 = e.1
  · simp [hp]
  · simp [hp]

theorem WF_remove_edge (g : HashTable) (e : Edge) (h : g.WF) : (g.remove_edge e).WF := by
  obtain ⟨hc, hn⟩ := h
  constructor
  · intro q hq
    rcases List.mem_map.mp hq with ⟨p, hp, he⟩
    rw [vertices_remove_edge]
    intro w hw
    by_cases hx : p.1 == e.1
    · rw [if_pos hx] at he
      rw [← he] at hw
      exact hc p hp w (List.mem_of_mem_erase hw)
    · rw [if_neg hx] at he
      rw [← he] at hw
      exact hc p hp w hw
  · intro q hq
    rcases List.mem_map.mp hq with ⟨p, hp, he⟩
    by_cases hx : p.1 == e.1
    · rw [if_pos hx] at he
      rw [← he]
      exact (hn p hp).erase _
    · rw [if_neg hx] at he
      rw [← he]
      exact hn p hp

theorem mem_vertices_remove_vertex {g : HashTable} {v j : VertexId} :
    j ∈ (g.remove_vertex v).vertices ↔ j ∈ g.vertices ∧ j ≠ v := by
  show j ∈ (((g.data.map _).filter _).map Prod.fst) ↔ _
  constructor
  · intro hj
    rcases List.mem_map.mp hj with ⟨q, hq, he⟩
    rcases List.mem_filter.mp hq with ⟨hq2, hq3⟩
    rcases List.mem_map.mp hq2 with ⟨p, hp, he2⟩
    constructor
    · have : q.1 = p.1 := by rw [← he2]
      rw [← he, this]
      exact List.mem_map_of_mem Prod.fst hp
    · intro hjv
      rw [he, hjv] at hq3
      simp at hq3
  · rintro ⟨hj, hjv⟩
    rcases List.mem_map.mp hj with ⟨p, hp, he⟩
    apply List.mem_map.mpr
    refine ⟨(p.1, p.2.erase v), ?_, he⟩
    apply List.mem_filter.mpr
    refine ⟨List.mem_map_of_mem _ hp, ?_⟩
    rw [he]
    simp [hjv]

theorem WF_remove_vertex (g : HashTable) (v : VertexId) (h : g.WF) :
    (g.remove_vertex v).WF := by
  obtain ⟨hc, hn⟩ := h
  constructor
  · intro q hq
    rcases List.mem_filter.mp hq with ⟨hq2, _⟩
    rcases List.mem_map.mp hq2 with ⟨p, hp, he⟩
    intro w hw
    rw [← he] at hw
    have hwp : w ∈ p.2.erase v := hw
    have hwmem : w ∈ p.2 := List.mem_of_mem_erase hwp
    have hwne : w ≠ v := ((hn p hp).mem_erase_iff.mp hwp).1
    exact mem_vertices_remove_vertex.mpr ⟨hc p hp w hwmem, hwne⟩
  · intro q hq
    rcases List.mem_filter.mp hq with ⟨hq2, _⟩
    rcases List.mem_map.mp hq2 with ⟨p, hp, he⟩
    rw [← he]
    exact (hn p hp).erase _

/-- Graphs reachable from the empty graph by the mutating operations of
the store. -/
inductive Reachable : HashTable → Prop
  | empty : Reachable HashTable.new
  | add_edge {g : HashTable} (e : Edge) : Reachable g → Reachable (g.add_edge e)
  | remove_edge {g : HashTable} (e : Edge) : Reachable g → Reachable (g.remove_edge e)
  | remove_vertex {g : HashTable} (v : VertexId) : Reachable g → Reachable (g.remove_vertex v)

theorem WF_new : HashTable.new.WF := by
  constructor
  · intro p hp; cases hp
  · intro p hp; cases hp

theorem WF_of_Reachable {g : HashTable} (h : Reachable g) : g.WF := by
  induction h with
  | empty => exact WF_new
  | add_edge e _ ih => exact WF_add_edge _ e ih
  | remove_edge e _ ih => exact WF_remove_edge _ e ih
  | remove_vertex v _ ih => exact WF_remove_vertex _ v ih

theorem order_eq_zero (g : HashTable) (h0 : g.edge_count = 0) :
    order g = g.vertices := by
  conv_lhs => rw [order]
  rw [dif_pos h0]

theorem order_eq_odd (g : HashTable) (hodd : g.edge_count % 2 = 1) :
    order g =
      vertex_with_min_indegree g ::
        order (g.remove_vertex (vertex_with_min_indegree g)) := by
  have h0 : ¬ g.edge_count = 0 := by omega
  conv_lhs => rw [order]
  rw [dif_neg h0, dif_pos hodd]

theorem order_eq_even (g : HashTable) (h0 : ¬ g.edge_count = 0)
    (heven : ¬ g.edge_count % 2 = 1) :
    order g =
      order (subgraph g
        ((sort_by_indegree_asc g).take ((sort_by_indegree_asc g).length / 2))) ++
      order (subgraph g
        ((sort_by_indegree_asc g).drop ((sort_by_indegree_asc g).length / 2))) := by
  conv_lhs => rw [order]
  rw [dif_neg h0, dif_neg heven]

theorem remove_vertex_noop (g : HashTable) (v : VertexId) (hc : g.Closed)
    (hv : v ∉ g.vertices) : g.remove_vertex v = g := by
  apply HashTable.ext
  show (g.data.map (fun p => (p.1, p.2.erase v))).filter (fun p => p.1 != v) = g.data
  have hmap : g.data.map (fun p => (p.1, p.2.erase v)) = g.data := by
    have hcongr : ∀ p ∈ g.data, (p.1, p.2.erase v) = id p := by
      intro p hp
      have hnm : v ∉ p.2 := fun hm => hv (hc p hp v hm)
      rw [List.erase_of_not_mem hnm]
      exact Prod.mk.eta
    rw [List.map_congr_left hcongr, List.map_id]
  rw [hmap]
  apply List.filter_eq_self.mpr
  intro p hp
  have hne : p.1 ≠ v := fun he => hv (he ▸ List.mem_map_of_mem Prod.fst hp)
  simp [hne]

theorem remove_edge_noop (g : HashTable) (e : Edge)
    (h : g.has_edge e.1 e.2 = false) : g.remove_edge e = g := by
  apply HashTable.ext
  show g.data.map (fun p => if p.1 == e.1 then (p.1, p.2.erase e.2) else p) = g.data
  have hcongr : ∀ p ∈ g.data,
      (if p.1 == e.1 then (p.1, p.2.erase e.2) else p) = id p := by
    intro p hp
    by_cases hx : p.1 = e.1
    · have hl : g.data.lookup e.1 = some p.2 := by
        apply lookup_eq_some_of_mem g.sorted
        rw [← hx, Prod.mk.eta]
        exact hp
      unfold HashTable.has_edge at h
      rw [hl] at h
      have h2 : p.2.contains e.2 = false := h
      have hnm : e.2 ∉ p.2 := by
        intro hm
        have hc2 : p.2.contains e.2 = true := List.elem_eq_true_of_mem hm
        rw [hc2] at h2
        exact Bool.noConfusion h2
      rw [if_pos (beq_iff_eq.mpr hx), List.erase_of_not_mem hnm]
      exact Prod.mk.eta
    · rw [if_neg (fun hbe => hx (beq_iff_eq.mp hbe))]
      rfl
  rw [List.map_congr_left hcongr, List.map_id]

theorem edges_inbound_absent (g : HashTable) (v : VertexId) (hc : g.Closed)
    (hv : v ∉ g.vertices) : g.edges v Direction.Inbound = some [] := by
  show some ((g.data.filter (fun p => p.2.contains v)).map (fun p => (p.1, v))) = some []
  have hfil : g.data.filter (fun p => p.2.contains v) = [] := by
    apply List.filter_eq_nil.mpr
    intro p hp hcont
    exact hv (hc p hp v (List.mem_of_elem_eq_true hcont))
  rw [hfil]
  rfl

theorem order_single_vertex (g : HashTable) (hwf : g.WF) (v : VertexId)
    (hv : g.vertices = [v]) : order g = [v] := by
  obtain ⟨l, hdata⟩ : ∃ l, g.data = [(v, l)] := by
    cases hd : g.data with
    | nil =>
      rw [HashTable.vertices, hd] at hv
      cases hv
    | cons p rest =>
      rw [HashTable.vertices, hd, List.map_cons] at hv
      have h1 : p.1 = v ∧ rest.map Prod.fst = [] := by
        constructor
        · exact (List.cons.injEq _ _ _ _ ▸ hv).1
        · exact (List.cons.injEq _ _ _ _ ▸ hv).2
      have hrest : rest = [] := List.map_eq_nil.mp h1.2
      refine ⟨p.2, ?_⟩
      rw [hrest, ← h1.1, Prod.mk.eta]
  have hpl : (v, l) ∈ g.data := by rw [hdata]; exact List.mem_cons_self _ _
  have hl : l = [] ∨ l = [v] := by
    have hmem : ∀ w ∈ l, w = v := by
      intro w hw
      have := hwf.1 (v, l) hpl w hw
      rw [hv] at this
      exact List.mem_singleton.mp this
    have hndl : l.Nodup := hwf.2 (v, l) hpl
    cases l with
    | nil => left; rfl
    | cons a as =>
      right
      have ha : a = v := hmem a (List.mem_cons_self _ _)
      have has : as = [] := by
        cases as with
        | nil => rfl
        | cons b bs =>
          exfalso
          have hb : b = v := hmem b (List.mem_cons_of_mem _ (List.mem_cons_self _ _))
          have := (List.nodup_cons.mp hndl).1
          apply this
          rw [ha, hb]
          exact List.mem_cons_self _ _
      rw [ha, has]
  rcases hl with hl | hl
  · have hec : g.edge_count = 0 := by
      unfold HashTable.edge_count
      rw [hdata, hl]
      rfl
    rw [order_eq_zero g hec, hv]
  · have hec : g.edge_count = 1 := by
      unfold HashTable.edge_count
      rw [hdata, hl]
      rfl
    have hodd : g.edge_count % 2 = 1 := by rw [hec]
    rw [order_eq_odd g hodd]
    have hvne : g.vertices ≠ [] := by rw [hv]; simp
    have hmin : vertex_with_min_indegree g = v := by
      have := (vertex_with_min_indegree_spec g hvne).1
      rw [hv] at this
      exact List.mem_singleton.mp this
    rw [hmin]
    have hrd : (g.remove_vertex v).data = [] := by
      show (g.data.map (fun p => (p.1, p.2.erase v))).filter (fun p => p.1 != v) = []
      rw [hdata]
      simp
    have hrec : (g.remove_vertex v).edge_count = 0 := by
      unfold HashTable.edge_count
      rw [hrd]
      rfl
    rw [order_eq_zero _ hrec]
    show v :: (g.remove_vertex v).vertices = [v]
    rw [HashTable.vertices, hrd]
    rfl

theorem sublist_sum_le {l1 l2 : List Nat} (h : l1.Sublist l2) : l1.sum ≤ l2.sum := by
  induction h with
  | slnil => exact le_refl _
  | cons a _ ih => rw [List.sum_cons]; omega
  | cons₂ a _ ih => rw [List.sum_cons, List.sum_cons]; omega

theorem ec_remove_vertex_le (g : HashTable) (v : VertexId) :
    (g.remove_vertex v).edge_count ≤ g.edge_count := by
  show ((((g.data.map (fun p => (p.1, p.2.erase v))).filter
      (fun p => p.1 != v)).map (fun p => p.2.length)).sum) ≤ _
  have h1 : (((g.data.map (fun p => (p.1, p.2.erase v))).filter
      (fun p => p.1 != v)).map (fun p => p.2.length)).sum ≤
      (((g.data.map (fun p => (p.1, p.2.erase v)))).map (fun p => p.2.length)).sum :=
    sublist_sum_le ((List.filter_sublist _).map _)
  have h2 : (((g.data.map (fun p => (p.1, p.2.erase v)))).map (fun p => p.2.length)).sum ≤
      (g.data.map (fun p => p.2.length)).sum := by
    rw [List.map_map]
    apply List.sum_le_sum
    intro p _
    exact (List.erase_sublist v p.2).length_le
  exact le_trans h1 h2

theorem sum_upsertRaw_le (k : VertexId) (f : List VertexId → List VertexId)
    (d : List VertexId) (c : Nat) (hf : ∀ x, (f x).length ≤ x.length + c)
    (hd : d.length ≤ c) :
    ∀ l : List (VertexId × List VertexId),
      ((upsertRaw k f d l).map (fun p => p.2.length)).sum ≤
        (l.map (fun p => p.2.length)).sum + c := by
  intro l
  induction l with
  | nil => simpa [upsertRaw] using hd
  | cons p rest ih =>
    simp only [upsertRaw]
    by_cases h1 : k < p.1
    · rw [if_pos h1]
      simp only [List.map_cons, List.sum_cons]
      omega
    · by_cases h2 : k = p.1
      · rw [if_neg h1, if_pos h2]
        simp only [List.map_cons, List.sum_cons]
        have := hf p.2
        omega
      · rw [if_neg h1, if_neg h2]
        simp only [List.map_cons, List.sum_cons]
        omega

theorem ec_add_edge_le (g : HashTable) (e : Edge) :
    (g.add_edge e).edge_count ≤ g.edge_count + 1 := by
  show ((upsertRaw e.2 id [] _).map (fun p => p.2.length)).sum ≤ _
  have houter := sum_upsertRaw_le e.2 id [] 0 (fun x => by simp) (by simp)
    (upsertRaw e.1 (fun l => if l.contains e.2 then l else l ++ [e.2]) [e.2] g.data)
  have hinner := sum_upsertRaw_le e.1
    (fun l => if l.contains e.2 then l else l ++ [e.2]) [e.2] 1
    (fun x => by by_cases hm : e.2 ∈ x <;> simp [hm] <;> omega) (by simp) g.data
  unfold HashTable.edge_count
  omega

theorem ec_from_edges_le : ∀ (es : List Edge) (g0 : HashTable),
    (es.foldl HashTable.add_edge g0).edge_count ≤ g0.edge_count + es.length := by
  intro es
  induction es with
  | nil => intro g0; simp
  | cons e rest ih =>
    intro g0
    simp only [List.foldl_cons, List.length_cons]
    have h1 := ih (g0.add_edge e)
    have h2 := ec_add_edge_le g0 e
    omega

theorem flatMap_edges_out_length (g : HashTable) :
    (g.vertices.flatMap (fun v => g.edges_out v)).length = g.edge_count := by
  rw [List.length_flatMap]
  unfold HashTable.vertices HashTable.edge_count
  rw [List.map_map]
  congr 1
  apply List.map_congr_left
  intro p hp
  show (g.edges_out p.1).length = p.2.length
  unfold HashTable.edges_out
  rw [lookup_eq_some_of_mem g.sorted (show (p.1, p.2) ∈ g.data by rw [Prod.mk.eta]; exact hp)]
  simp

theorem ec_subgraph_le (g : HashTable) (keep : List VertexId) :
    (subgraph g keep).edge_count ≤ g.edge_count := by
  unfold subgraph HashTable.from_edges
  have h1 := ec_from_edges_le
    ((g.vertices.flatMap (fun v => g.edges_out v)).filter
      (fun e => keep.contains e.1 && keep.contains e.2)) HashTable.new
  have h2 := List.length_filter_le
    (fun e : Edge => keep.contains e.1 && keep.contains e.2)
    (g.vertices.flatMap (fun v => g.edges_out v))
  have h3 := flatMap_edges_out_length g
  have h4 : HashTable.new.edge_count = 0 := rfl
  omega

/-- Fuel-indexed structural twin of `order`, used to evaluate the
well-founded recursion on concrete graphs inside the kernel. -/
def orderF : Nat → HashTable → List VertexId
  | 0, _ => []
  | fuel + 1, g =>
    if g.edge_count = 0 then g.vertices
    else if g.edge_count % 2 = 1 then
      vertex_with_min_indegree g ::
        orderF fuel (g.remove_vertex (vertex_with_min_indegree g))
    else
      orderF fuel (subgraph g
        ((sort_by_indegree_asc g).take ((sort_by_indegree_asc g).length / 2))) ++
      orderF fuel (subgraph g
        ((sort_by_indegree_asc g).drop ((sort_by_indegree_asc g).length / 2)))

theorem order_eq_orderF : ∀ (fuel : Nat) (g : HashTable),
    g.order + g.edge_count < fuel → order g = orderF fuel g := by
  intro fuel
  induction fuel with
  | zero => intro g h; omega
  | succ n ih =>
    intro g h
    have hstep : orderF (n + 1) g =
        if g.edge_count = 0 then g.vertices
        else if g.edge_count % 2 = 1 then
          vertex_with_min_indegree g ::
            orderF n (g.remove_vertex (vertex_with_min_indegree g))
        else
          orderF n (subgraph g
            ((sort_by_indegree_asc g).take ((sort_by_indegree_asc g).length / 2))) ++
          orderF n (subgraph g
            ((sort_by_indegree_asc g).drop ((sort_by_indegree_asc g).length / 2))) := rfl
    rw [hstep]
    by_cases h0 : g.edge_count = 0
    · rw [if_pos h0]
      exact order_eq_zero g h0
    · rw [if_neg h0]
      by_cases hodd : g.edge_count % 2 = 1
      · rw [if_pos hodd]
        rw [order_eq_odd g hodd]
        congr 1
        apply ih
        have hv : vertex_with_min_indegree g ∈ g.vertices :=
          (vertex_with_min_indegree_spec g (vertices_ne_nil_of_edge_count g h0)).1
        have h1 := order_remove_vertex_lt g _ hv
        have h2 := ec_remove_vertex_le g (vertex_with_min_indegree g)
        omega
      · rw [if_neg hodd]
        rw [order_eq_even g h0 hodd]
        have hperm := sort_by_indegree_asc_perm g
        have hlen : (sort_by_indegree_asc g).length = g.order := by
          rw [hperm.length_eq]; exact List.length_map _ _
        have hpos : 0 < g.order := order_pos_of_edge_count g h0
        congr 1
        · apply ih
          have hb := order_subgraph_le g
            ((sort_by_indegree_asc g).take ((sort_by_indegree_asc g).length / 2))
          rw [List.length_take] at hb
          have hec := ec_subgraph_le g
            ((sort_by_indegree_asc g).take ((sort_by_indegree_asc g).length / 2))
          omega
        · apply ih
          have hec := ec_subgraph_le g
            ((sort_by_indegree_asc g).drop ((sort_by_indegree_asc g).length / 2))
          by_cases hge2 : 2 ≤ g.order
          · have hb := order_subgraph_le g
              ((sort_by_indegree_asc g).drop ((sort_by_indegree_asc g).length / 2))
            rw [List.length_drop] at hb
            omega
          · have h1 : g.order = 1 := by omega
            obtain ⟨v, hv⟩ : ∃ v, sort_by_indegree_asc g = [v] := by
              have hl1 : (sort_by_indegree_asc g).length = 1 := by rw [hlen, h1]
              cases hs : sort_by_indegree_asc g with
              | nil => rw [hs] at hl1; simp at hl1
              | cons a l =>
                rw [hs] at hl1
                simp only [List.length_cons] at hl1
                have : l = [] := List.length_eq_zero.mp (by omega)
                rw [this]
                exact ⟨a, rfl⟩
            have hkeep : (sort_by_indegree_asc g).drop
                ((sort_by_indegree_asc g).length / 2) = [v] := by rw [hv]; simp
            rw [hkeep]
            have hecle := subgraph_singleton_edge_count g v
            have hole := order_subgraph_le g [v]
            simp only [List.length_singleton] at hole
            have hecg : 2 ≤ g.edge_count := by omega
            omega

/-- The triangle graph 0 → 2 → 1 → 0 (all three vertices on one cycle). -/
def exampleTriangle : HashTable := HashTable.from_edges [(0, 2), (2, 1), (1, 0)]

/-- The two-cycle 1 → 4 → 1. -/
def exampleTwoCycle : HashTable := HashTable.from_edges [(1, 4), (4, 1)]

/-- The 19-vertex reference fixture of the `works_on_multiple_cliques`
test: a DAG with 5 back-edges appended (the edges after the comment in
the test source). -/
def fixtureEdges : List Edge :=
  [(0, 1), (0, 7), (1, 2), (1, 3), (2, 4), (2, 5), (2, 6), (3, 7), (6, 8), (6, 9),
   (7, 9), (5, 10), (8, 10), (9, 10), (4, 11), (4, 12), (12, 11), (10, 13), (11, 13),
   (10, 14), (14, 15), (14, 16), (16, 15), (16, 17), (17, 18), (12, 18),
   (13, 2), (7, 1), (6, 7), (15, 10), (15, 13)]

def fixtureGraph : HashTable := HashTable.from_edges fixtureEdges

/-- The removal loop of the test harness: `remove_edge` once per edge of
the returned feedback set. -/
def remove_edges (g : HashTable) (es : List Edge) : HashTable :=
  es.foldl HashTable.remove_edge g

/-- Comparison definition following the spec wording for the extraction:
the edges (u, v) of the graph such that v appears before u in the
ordering (leftward by POSITION, not by identifier). -/
def leftward_by_position (g : HashTable) (ord : List VertexId) : Finset Edge :=
  (g.all_edges.filter (fun e => ord.indexOf e.2 < ord.indexOf e.1)).toFinset

theorem order_exampleTriangle : order exampleTriangle = [0, 2, 1] := by
  rw [order_eq_orderF 10 exampleTriangle (by decide)]
  decide

theorem order_exampleTwoCycle : order exampleTwoCycle = [] := by
  rw [order_eq_orderF 10 exampleTwoCycle (by decide)]
  decide

set_option maxRecDepth 4000 in
theorem order_fixtureGraph : order fixtureGraph = [0, 1, 2, 6, 8, 7, 16, 15] := by
  rw [order_eq_orderF 60 fixtureGraph (by decide)]
  decide

/-- C1: the claim says the returned set is the set of edges (u, v) with v
BEFORE u in the computed ordering S.  The code compares vertex
identifiers (`edge.1 < v`), not positions: on the triangle 0 → 2 → 1 → 0
the ordering is S = [0, 2, 1]; the position-leftward set is {(1, 0)} but
the code returns {(2, 1), (1, 0)}.  This contradicts the file's own
header comment, which describes the ESL extraction of "all leftward arcs
in a vertex ordering". -/
theorem C1_collect_compares_ids_not_positions :
    order exampleTriangle = [0, 2, 1] ∧
    feedback_arc_set exampleTriangle = ({(2, 1), (1, 0)} : Finset Edge) ∧
    leftward_by_position exampleTriangle (order exampleTriangle) =
      ({(1, 0)} : Finset Edge) ∧
    feedback_arc_set exampleTriangle ≠
      leftward_by_position exampleTriangle (order exampleTriangle) := by
  have hord := order_exampleTriangle
  refine ⟨hord, ?_, ?_, ?_⟩
  · unfold feedback_arc_set
    rw [hord]
    decide
  · unfold leftward_by_position
    rw [hord]
    decide
  · unfold feedback_arc_set leftward_by_position
    rw [hord]
    decide

/-- C2: the claim says removing the returned set always leaves the graph
acyclic.  On the two-cycle 1 → 4 → 1 (2 edges, even) both halves of the
split are singletons, both induced subgraphs are built with `from_edges`
and hence empty, the ordering is empty, the returned feedback set is
empty — and the graph, unchanged by removing nothing, still has its
cycle. -/
theorem C2_two_cycle_feedback_set_leaves_cycle :
    feedback_arc_set exampleTwoCycle = (∅ : Finset Edge) ∧
    remove_edges exampleTwoCycle [] = exampleTwoCycle ∧
    ¬ exampleTwoCycle.Acyclic := by
  refine ⟨?_, rfl, ?_⟩
  · unfold feedback_arc_set
    rw [order_exampleTwoCycle]
    decide
  · intro h
    have h14 : exampleTwoCycle.has_edge 1 4 = true := by decide
    have h41 : exampleTwoCycle.has_edge 4 1 = true := by decide
    exact h 1 (Relation.TransGen.head h14 (Relation.TransGen.single h41))

/-- C3: the claim says order(G) contains every vertex and the even-branch
subgraphs retain isolated vertices.  On the two-cycle 1 → 4 → 1 the
ordering is empty though the graph has vertices [1, 4], because
`subgraph` uses `from_edges` (not `from_vertices_and_edges`), dropping
vertices isolated inside their half. -/
theorem C3_ordering_misses_vertices :
    exampleTwoCycle.vertices = [1, 4] ∧
    order exampleTwoCycle = [] ∧
    (subgraph exampleTwoCycle [1]).vertices = [] := by
  exact ⟨by decide, order_exampleTwoCycle, by decide⟩

/-- C4: on the 19-vertex fixture the heuristic does return exactly 4
edges — {(7, 1), (16, 15), (15, 10), (15, 13)} — but removing them does
NOT leave the graph acyclic: the ordering [0, 1, 2, 6, 8, 7, 16, 15]
misses 11 vertices, the leftward edges (13, 2) and (12, 11) are never
collected, and the cycle 2 → 4 → 11 → 13 → 2 survives. -/
theorem C4_fixture_four_edges_but_cyclic :
    (feedback_arc_set fixtureGraph).card = 4 ∧
    feedback_arc_set fixtureGraph =
      ({(7, 1), (16, 15), (15, 10), (15, 13)} : Finset Edge) ∧
    ¬ (remove_edges fixtureGraph [(7, 1), (16, 15), (15, 10), (15, 13)]).Acyclic := by
  have hfas : feedback_arc_set fixtureGraph =
      ({(7, 1), (16, 15), (15, 10), (15, 13)} : Finset Edge) := by
    unfold feedback_arc_set
    rw [order_fixtureGraph]
    decide
  refine ⟨by rw [hfas]; decide, hfas, ?_⟩
  intro h
  have e1 : (remove_edges fixtureGraph
      [(7, 1), (16, 15), (15, 10), (15, 13)]).has_edge 2 4 = true := by decide
  have e2 : (remove_edges fixtureGraph
      [(7, 1), (16, 15), (15, 10), (15, 13)]).has_edge 4 11 = true := by decide
  have e3 : (remove_edges fixtureGraph
      [(7, 1), (16, 15), (15, 10), (15, 13)]).has_edge 11 13 = true := by decide
  have e4 : (remove_edges fixtureGraph
      [(7, 1), (16, 15), (15, 10), (15, 13)]).has_edge 13 2 = true := by decide
  exact h 2 (Relation.TransGen.head e1
    (Relation.TransGen.head e2
      (Relation.TransGen.head e3
        (Relation.TransGen.single e4))))

/-- C5: on an odd edge count, `order` removes the vertex selected by
`vertex_with_min_indegree` — a member of the graph, of minimal indegree,
smallest identifier among the tied minima — and prepends it to the
recursively computed ordering of the remainder.  The branch is keyed on
the edge count alone: the equation holds for every graph with odd edge
count, whatever its vertex count. -/
theorem C5_odd_branch (g : HashTable) (hodd : g.edge_count % 2 = 1) :
    order g = vertex_with_min_indegree g ::
        order (g.remove_vertex (vertex_with_min_indegree g)) ∧
    vertex_with_min_indegree g ∈ g.vertices ∧
    (∀ u ∈ g.vertices,
      (g.edges_in (vertex_with_min_indegree g)).length ≤ (g.edges_in u).length) ∧
    (∀ u ∈ g.vertices,
      (g.edges_in u).length = (g.edges_in (vertex_with_min_indegree g)).length →
        vertex_with_min_indegree g ≤ u) := by
  have h0 : g.edge_count ≠ 0 := by omega
  have hspec := vertex_with_min_indegree_spec g (vertices_ne_nil_of_edge_count g h0)
  exact ⟨order_eq_odd g hodd, hspec.1, hspec.2.1, hspec.2.2⟩

theorem C5_odd_branch_witness :
    (HashTable.from_edges [(0, 1)]).edge_count % 2 = 1 ∧
    (order (HashTable.from_edges [(0, 1)]) =
        vertex_with_min_indegree (HashTable.from_edges [(0, 1)]) ::
          order ((HashTable.from_edges [(0, 1)]).remove_vertex
            (vertex_with_min_indegree (HashTable.from_edges [(0, 1)]))) ∧
      vertex_with_min_indegree (HashTable.from_edges [(0, 1)]) ∈
        (HashTable.from_edges [(0, 1)]).vertices ∧
      (∀ u ∈ (HashTable.from_edges [(0, 1)]).vertices,
        ((HashTable.from_edges [(0, 1)]).edges_in
            (vertex_with_min_indegree (HashTable.from_edges [(0, 1)]))).length ≤
          ((HashTable.from_edges [(0, 1)]).edges_in u).length) ∧
      (∀ u ∈ (HashTable.from_edges [(0, 1)]).vertices,
        ((HashTable.from_edges [(0, 1)]).edges_in u).length =
            ((HashTable.from_edges [(0, 1)]).edges_in
              (vertex_with_min_indegree (HashTable.from_edges [(0, 1)]))).length →
          vertex_with_min_indegree (HashTable.from_edges [(0, 1)]) ≤ u)) :=
  ⟨by decide, C5_odd_branch (HashTable.from_edges [(0, 1)]) (by decide)⟩

/-- C6: the recursion of `order` terminates — each recursive call
strictly reduces the vertex count or the edge count of the graph it
receives (odd branch: one key removed; even branch: each half's subgraph
has fewer vertices, or — in the degenerate single-vertex case — fewer
edges).  An empty graph yields the empty ordering; a single-vertex
well-formed graph yields that vertex. -/
theorem C6_termination (g : HashTable) (hwf : g.WF) :
    (g.edge_count % 2 = 1 →
      (g.remove_vertex (vertex_with_min_indegree g)).order < g.order ∨
      (g.remove_vertex (vertex_with_min_indegree g)).edge_count < g.edge_count) ∧
    (g.edge_count ≠ 0 → g.edge_count % 2 ≠ 1 →
      ((subgraph g ((sort_by_indegree_asc g).take
          ((sort_by_indegree_asc g).length / 2))).order < g.order ∨
        (subgraph g ((sort_by_indegree_asc g).take
          ((sort_by_indegree_asc g).length / 2))).edge_count < g.edge_count) ∧
      ((subgraph g ((sort_by_indegree_asc g).drop
          ((sort_by_indegree_asc g).length / 2))).order < g.order ∨
        (subgraph g ((sort_by_indegree_asc g).drop
          ((sort_by_indegree_asc g).length / 2))).edge_count < g.edge_count)) ∧
    (g.vertices = [] → order g = []) ∧
    (∀ v : VertexId, g.vertices = [v] → order g = [v]) := by
  refine ⟨?_, ?_, ?_, fun v hv => order_single_vertex g hwf v hv⟩
  · intro hodd
    have h0 : g.edge_count ≠ 0 := by omega
    left
    exact order_remove_vertex_lt g _
      (vertex_with_min_indegree_spec g (vertices_ne_nil_of_edge_count g h0)).1
  · intro h0 _
    have hperm := sort_by_indegree_asc_perm g
    have hlen : (sort_by_indegree_asc g).length = g.order := by
      rw [hperm.length_eq]; exact List.length_map _ _
    have hpos : 0 < g.order := order_pos_of_edge_count g h0
    constructor
    · left
      have hb := order_subgraph_le g
        ((sort_by_indegree_asc g).take ((sort_by_indegree_asc g).length / 2))
      rw [List.length_take] at hb
      omega
    · by_cases hge2 : 2 ≤ g.order
      · left
        have hb := order_subgraph_le g
          ((sort_by_indegree_asc g).drop ((sort_by_indegree_asc g).length / 2))
        rw [List.length_drop] at hb
        omega
      · have h1 : g.order = 1 := by omega
        obtain ⟨v, hv⟩ : ∃ v, sort_by_indegree_asc g = [v] := by
          have hl1 : (sort_by_indegree_asc g).length = 1 := by rw [hlen, h1]
          cases hs : sort_by_indegree_asc g with
          | nil => rw [hs] at hl1; simp at hl1
          | cons a l =>
            rw [hs] at hl1
            simp only [List.length_cons] at hl1
            have : l = [] := List.length_eq_zero.mp (by omega)
            rw [this]
            exact ⟨a, rfl⟩
        have hkeep : (sort_by_indegree_asc g).drop
            ((sort_by_indegree_asc g).length / 2) = [v] := by rw [hv]; simp
        rw [hkeep]
        right
        have hecle := subgraph_singleton_edge_count g v
        -- would the edge count be below 2, the even branch is impossible:
        -- a well-formed single-vertex graph has at most its self-loop
        obtain ⟨l, hdata⟩ : ∃ p, g.data = [p] := by
          cases hd : g.data with
          | nil => rw [HashTable.order, hd] at h1; cases h1
          | cons p rest =>
            rw [HashTable.order, hd, List.length_cons] at h1
            have : rest = [] := List.length_eq_zero.mp (by omega)
            rw [this]
            exact ⟨p, rfl⟩
        have hsub : ∀ w ∈ l.2, w = l.1 := by
          intro w hw
          have := hwf.1 l (by rw [hdata]; exact List.mem_cons_self _ _) w hw
          rw [HashTable.vertices, hdata] at this
          simp at this
          exact this
        have hnd : l.2.Nodup := hwf.2 l (by rw [hdata]; exact List.mem_cons_self _ _)
        have hle1 : l.2.length ≤ 1 := by
          cases hl2 : l.2 with
          | nil => simp
          | cons a as =>
            cases has : as with
            | nil => simp
            | cons b bs =>
              exfalso
              rw [hl2, has] at hnd hsub
              have ha : a = l.1 := hsub a (List.mem_cons_self _ _)
              have hb : b = l.1 := hsub b
                (List.mem_cons_of_mem _ (List.mem_cons_self _ _))
              exact (List.nodup_cons.mp hnd).1 (by rw [ha, hb]; exact List.mem_cons_self _ _)
        have hecg : g.edge_count ≤ 1 := by
          unfold HashTable.edge_count
          rw [hdata]
          simp only [List.map_cons, List.map_nil, List.sum_cons, List.sum_nil]
          omega
        omega
  · intro hv
    have hd : g.data = [] := by
      cases hd2 : g.data with
      | nil => rfl
      | cons p rest => rw [HashTable.vertices, hd2] at hv; simp at hv
    have hec : g.edge_count = 0 := by
      unfold HashTable.edge_count
      rw [hd]
      rfl
    rw [order_eq_zero g hec, hv]

theorem C6_termination_witness :
    (HashTable.from_edges [(0, 1), (1, 0)]).WF ∧
    (((HashTable.from_edges [(0, 1), (1, 0)]).edge_count % 2 = 1 →
      ((HashTable.from_edges [(0, 1), (1, 0)]).remove_vertex
          (vertex_with_min_indegree (HashTable.from_edges [(0, 1), (1, 0)]))).order <
        (HashTable.from_edges [(0, 1), (1, 0)]).order ∨
      ((HashTable.from_edges [(0, 1), (1, 0)]).remove_vertex
          (vertex_with_min_indegree (HashTable.from_edges [(0, 1), (1, 0)]))).edge_count <
        (HashTable.from_edges [(0, 1), (1, 0)]).edge_count) ∧
    ((HashTable.from_edges [(0, 1), (1, 0)]).edge_count ≠ 0 →
      (HashTable.from_edges [(0, 1), (1, 0)]).edge_count % 2 ≠ 1 →
      ((subgraph (HashTable.from_edges [(0, 1), (1, 0)])
          ((sort_by_indegree_asc (HashTable.from_edges [(0, 1), (1, 0)])).take
            ((sort_by_indegree_asc (HashTable.from_edges [(0, 1), (1, 0)])).length / 2))).order <
          (HashTable.from_edges [(0, 1), (1, 0)]).order ∨
        (subgraph (HashTable.from_edges [(0, 1), (1, 0)])
          ((sort_by_indegree_asc (HashTable.from_edges [(0, 1), (1, 0)])).take
            ((sort_by_indegree_asc (HashTable.from_edges [(0, 1), (1, 0)])).length / 2))).edge_count <
          (HashTable.from_edges [(0, 1), (1, 0)]).edge_count) ∧
      ((subgraph (HashTable.from_edges [(0, 1), (1, 0)])
          ((sort_by_indegree_asc (HashTable.from_edges [(0, 1), (1, 0)])).drop
            ((sort_by_indegree_asc (HashTable.from_edges [(0, 1), (1, 0)])).length / 2))).order <
          (HashTable.from_edges [(0, 1), (1, 0)]).order ∨
        (subgraph (HashTable.from_edges [(0, 1), (1, 0)])
          ((sort_by_indegree_asc (HashTable.from_edges [(0, 1), (1, 0)])).drop
            ((sort_by_indegree_asc (HashTable.from_edges [(0, 1), (1, 0)])).length / 2))).edge_count <
          (HashTable.from_edges [(0, 1), (1, 0)]).edge_count)) ∧
    ((HashTable.from_edges [(0, 1), (1, 0)]).vertices = [] →
      order (HashTable.from_edges [(0, 1), (1, 0)]) = []) ∧
    (∀ v : VertexId, (HashTable.from_edges [(0, 1), (1, 0)]).vertices = [v] →
      order (HashTable.from_edges [(0, 1), (1, 0)]) = [v])) :=
  ⟨by decide, C6_termination (HashTable.from_edges [(0, 1), (1, 0)]) (by decide)⟩

/-- C7: both heuristics return subsets of the input graph's edge set (the
result is a finite set, so it has no duplicates by construction). -/
theorem C7_subset (g : HashTable) :
    feedback_arc_set g ⊆ g.all_edges.toFinset ∧
    greedy_feedback_arc_set g ⊆ g.all_edges.toFinset := by
  constructor
  · intro e he
    rw [show feedback_arc_set g = collect_leftward_edges g (order g) from rfl,
      collect_leftward_edges_eq] at he
    rw [List.mem_toFinset, List.mem_filter] at he
    rw [List.mem_toFinset]
    exact he.1
  · intro e he
    unfold greedy_feedback_arc_set at he
    rw [List.mem_toFinset, List.mem_filter] at he
    rw [List.mem_toFinset]
    exact he.1

/-- C8 counterexample: the claim says `edges(v, d)` fails for an absent
vertex in BOTH directions.  The `Inbound` arm only scans the neighbor
lists and returns an (empty) list for the absent vertex 2 — it does not
fail. -/
theorem C8_inbound_query_does_not_fail :
    2 ∉ (HashTable.from_edges [(0, 1)]).vertices ∧
    (HashTable.from_edges [(0, 1)]).edges 2 Direction.Inbound = some [] := by
  exact ⟨by decide, by decide⟩

/-- C8 (amended): for an absent vertex, `degree` and the `Outbound` edge
query fail (modelled by `none`), the `Inbound` edge query returns the
empty list without failing, and `remove_vertex` is a no-op; `remove_edge`
of an absent edge is a no-op. -/
theorem C8_queries_fail_removals_noop (g : HashTable) (hwf : g.WF) (v : VertexId)
    (hv : v ∉ g.vertices) :
    g.degree v = none ∧
    g.edges v Direction.Outbound = none ∧
    g.edges v Direction.Inbound = some [] ∧
    g.remove_vertex v = g ∧
    (∀ e : Edge, g.has_edge e.1 e.2 = false → g.remove_edge e = g) := by
  have hnone : g.data.lookup v = none := lookup_eq_none_of_not_mem hv
  refine ⟨?_, ?_, ?_, ?_, ?_⟩
  · unfold HashTable.degree
    rw [hnone]
    rfl
  · show (g.data.lookup v).map _ = none
    rw [hnone]
    rfl
  · exact edges_inbound_absent g v hwf.1 hv
  · exact remove_vertex_noop g v hwf.1 hv
  · intro e he
    exact remove_edge_noop g e he

theorem C8_queries_fail_removals_noop_witness :
    (HashTable.from_edges [(0, 1)]).WF ∧
    2 ∉ (HashTable.from_edges [(0, 1)]).vertices ∧
    ((HashTable.from_edges [(0, 1)]).degree 2 = none ∧
      (HashTable.from_edges [(0, 1)]).edges 2 Direction.Outbound = none ∧
      (HashTable.from_edges [(0, 1)]).edges 2 Direction.Inbound = some [] ∧
      (HashTable.from_edges [(0, 1)]).remove_vertex 2 = HashTable.from_edges [(0, 1)] ∧
      (∀ e : Edge, (HashTable.from_edges [(0, 1)]).has_edge e.1 e.2 = false →
        (HashTable.from_edges [(0, 1)]).remove_edge e = HashTable.from_edges [(0, 1)])) :=
  ⟨by decide, by decide,
    C8_queries_fail_removals_noop (HashTable.from_edges [(0, 1)]) (by decide) 2 (by decide)⟩

/-- C9: every graph built from the empty graph by add_edge, remove_edge
and remove_vertex satisfies the data-model invariants: every vertex
referenced by an edge is a key, neighbor lists have no duplicates, and
the edge count is the sum of the neighbor-list lengths. -/
theorem C9_reachable_invariants (g : HashTable) (h : Reachable g) :
    g.Closed ∧ g.NodupLists ∧
    g.edge_count = (g.data.map (fun p => p.2.length)).sum := by
  exact ⟨(WF_of_Reachable h).1, (WF_of_Reachable h).2, rfl⟩

theorem C9_reachable_invariants_witness :
    Reachable (((HashTable.new.add_edge (0, 1)).add_edge (0, 1)).remove_vertex 1) ∧
    ((((HashTable.new.add_edge (0, 1)).add_edge (0, 1)).remove_vertex 1).Closed ∧
      (((HashTable.new.add_edge (0, 1)).add_edge (0, 1)).remove_vertex 1).NodupLists ∧
      (((HashTable.new.add_edge (0, 1)).add_edge (0, 1)).remove_vertex 1).edge_count =
        (((((HashTable.new.add_edge (0, 1)).add_edge (0, 1)).remove_vertex 1)).data.map
          (fun p => p.2.length)).sum) :=
  ⟨Reachable.remove_vertex 1 (Reachable.add_edge (0, 1) (Reachable.add_edge (0, 1)
      Reachable.empty)),
    C9_reachable_invariants _ (Reachable.remove_vertex 1 (Reachable.add_edge (0, 1)
      (Reachable.add_edge (0, 1) Reachable.empty)))⟩

/-- C10 counterexample: the returned set is NOT always the set of edges
with numerically smaller target: on the two-cycle 1 → 4 → 1 the edge
(4, 1) has target below source, yet the returned set is empty because the
vertex 4 never makes it into the ordering. -/
theorem C10_two_cycle_misses_id_leftward_edge :
    feedback_arc_set exampleTwoCycle = (∅ : Finset Edge) ∧
    (exampleTwoCycle.all_edges.filter (fun e => decide (e.2 < e.1))).toFinset =
      ({(4, 1)} : Finset Edge) ∧
    feedback_arc_set exampleTwoCycle ≠
      (exampleTwoCycle.all_edges.filter (fun e => decide (e.2 < e.1))).toFinset := by
  have hfas : feedback_arc_set exampleTwoCycle = (∅ : Finset Edge) := by
    unfold feedback_arc_set
    rw [order_exampleTwoCycle]
    decide
  refine ⟨hfas, by decide, ?_⟩
  rw [hfas]
  decide

/-- C10 (amended): the returned set equals the edges of the graph whose
target identifier is smaller than their source identifier AND whose
source occurs in the computed ordering; as a pure function of the graph
it is deterministic across invocations. -/
theorem C10_feedback_set_is_id_leftward_with_source_in_ordering (g : HashTable) :
    feedback_arc_set g =
      (g.all_edges.filter
        (fun e => decide (e.2 < e.1) && (order g).contains e.1)).toFinset := by
  exact collect_leftward_edges_eq g (order g)
